import Mathlib

/-!
Verification of the PA transformations-for-Discovery pipeline.

Strings of the Python source are modelled as `List Char`; each Python helper
(`str.strip`, `str.split('/')`, `'/'.join`, `str.upper`, `str.isalpha`,
`str.count`) is embedded as an executable Lean function below, and the
pipeline functions (`_is_reference_like`, `_apply_y_naming`,
`_replace_embedded_references`, `apply_if_reference`, `convert_to_json`'s
record accumulation, the closure-state derivation, the transfer-register
helpers and the chunking loop of `lambda_handler`) are translated from
`src/transformers.py`, `src/utils.py` and `run_pipeline.py`.
-/

set_option maxRecDepth 10000

/-- Whitespace characters stripped by Python `str.strip()` (ASCII fragment). -/
def pyIsSpace (c : Char) : Bool :=
  c = ' ' || c = '\t' || c = '\n' || c = '\r' || c = '\x0b' || c = '\x0c'

/-- Python `str.strip()`: drop leading and trailing whitespace. -/
def pyStrip (l : List Char) : List Char :=
  ((l.dropWhile pyIsSpace).reverse.dropWhile pyIsSpace).reverse

/-- Python `str.split(sep)` for a single-character separator: always returns
`count sep + 1` chunks, empty chunks included. -/
def pySplit (sep : Char) : List Char → List (List Char)
  | [] => [[]]
  | c :: rest =>
    if c = sep then [] :: pySplit sep rest
    else
      match pySplit sep rest with
      | [] => [[c]]
      | t :: ts => (c :: t) :: ts

/-- Python `sep.join(parts)` for a single-character separator. -/
def pyJoin (sep : Char) : List (List Char) → List Char
  | [] => []
  | [t] => t
  | t :: t2 :: ts => t ++ sep :: pyJoin sep (t2 :: ts)

/-- ASCII alphabetic test, the fragment of Python `str.isalpha` / the regex
class `[A-Za-z]` exercised by this pipeline. -/
def asciiAlpha (c : Char) : Bool :=
  ('A' ≤ c && c ≤ 'Z') || ('a' ≤ c && c ≤ 'z')

/-- ASCII digit test (`[0-9]`). -/
def asciiDigit (c : Char) : Bool :=
  '0' ≤ c && c ≤ '9'

/-- The token character class `[A-Za-z0-9-]` of `_is_reference_like`. -/
def tokChar (c : Char) : Bool :=
  asciiAlpha c || asciiDigit c || c = '-'

/-- Python `str.isalpha()` (ASCII fragment): non-empty and all alphabetic. -/
def pyIsAlpha (t : List Char) : Bool :=
  !t.isEmpty && t.all asciiAlpha

/-- Python `str.upper()` on an ASCII character. -/
def upChar (c : Char) : Char :=
  if 'a' ≤ c && c ≤ 'z' then Char.ofNat (c.toNat - 32) else c

/-- A regex word character (`\w`, ASCII fragment): letters, digits, underscore. -/
def wordChar (c : Char) : Bool :=
  asciiAlpha c || asciiDigit c || c = '_'

/-- Case-insensitive match of the four characters `APT/` at the head of `l`. -/
def aptAtHead : List Char → Bool
  | a :: p :: t :: s :: _ =>
    upChar a = 'A' && upChar p = 'P' && upChar t = 'T' && s = '/'
  | _ => false

/-- Scan for the pattern of `re.search(r'(?i)\bAPT/', orig)`: an occurrence of
case-insensitive `APT/` whose preceding character (if any) is not a word
character. `prev` is the character just before the current position. -/
def aptSearch : Option Char → List Char → Bool
  | _, [] => false
  | prev, c :: rest =>
    (aptAtHead (c :: rest) && !(match prev with
      | none => false
      | some p => wordChar p)) || aptSearch (some c) rest

/-- The exclusion test of `_is_reference_like` on the original (unstripped)
string. -/
def containsWordAPT (l : List Char) : Bool :=
  aptSearch none l

/-- `YNamingTransformer._is_reference_like` (src/transformers.py:1500-1545),
translated clause by clause.  The whole string is first stripped; the `APT/`
exclusion is tested against the original string; tokens come from splitting
the stripped string on `/`. -/
def is_reference_like (l : List Char) : Bool :=
  let s := pyStrip l
  if s.length < 2 || 250 < s.length then false
  else if containsWordAPT l then false
  else if s.count '/' < 1 || 9 < s.count '/' then false
  else
    let raw_toks := pySplit '/' s
    let toks := raw_toks.map pyStrip
    if toks.length < 2 || 10 < toks.length then false
    else if (raw_toks.zip toks).any
        (fun p => p.1 != p.2 || p.2.isEmpty || !(p.2.all tokChar)) then false
    else if !(!(toks.headI.isEmpty) && toks.headI.all asciiAlpha) then false
    else if 1 < toks.headI.length || toks.headI = ['S'] then true
    else false

/-- `YNamingTransformer._apply_y_naming` (src/transformers.py:1422-1473).
The source checks `not text.strip()` twice (lines 1433 and 1437-1438); both
collapse to the single emptiness test here.  `self._refs` is `None` for every
transformer this pipeline constructs, so no membership check appears. -/
def apply_y_naming (text : List Char) : List Char :=
  if pyStrip text = [] then text
  else
    let ref := pyStrip text
    let parts := pySplit '/' ref
    if parts.length = 0 then text
    else
      let pref := (pyStrip parts.headI).map upChar
      let suffix := if 1 < parts.length then '/' :: pyJoin '/' parts.tail else []
      if !(pyIsAlpha (pyStrip parts.headI)) then text
      else
        let new_pref :=
          if pref = "PARL".toList then "YUKP".toList
          else if pref.headI = 'Y' && !pref.isEmpty then pref
          else
            let temp := 'Y' :: pref
            if 4 < temp.length then temp.take 4 else temp
        new_pref ++ suffix

/-- The character class `[A-Z0-9-]` of `_embedded_token_re`
(src/transformers.py:1227). -/
def clsChar (c : Char) : Bool :=
  ('A' ≤ c && c ≤ 'Z') || asciiDigit c || c = '-'

theorem length_dropWhile_le (p : α → Bool) (l : List α) :
    (l.dropWhile p).length ≤ l.length := by
  induction l with
  | nil => simp
  | cons a l ih =>
    by_cases h : p a
    · rw [List.dropWhile_cons_of_pos h]; exact Nat.le_succ_of_le ih
    · rw [List.dropWhile_cons_of_neg h]

/-- Greedy match of `(?:/[A-Z0-9-]+)+` (zero or more iterations): consume a
slash followed by a non-empty class run, as often as possible, returning the
consumed characters and the remainder.  The `fuel` parameter (always called
with at least the length of the list) only serves structural recursion: every
iteration consumes at least two characters, so the guard never fires. -/
def takeSegsF : Nat → List Char → List Char × List Char
  | 0, l => ([], l)
  | fuel + 1, l =>
    match l with
    | '/' :: c :: rest =>
      if clsChar c then
        let run := (c :: rest).takeWhile clsChar
        let rest' := (c :: rest).dropWhile clsChar
        let sr := takeSegsF fuel rest'
        ('/' :: (run ++ sr.1), sr.2)
      else ([], '/' :: c :: rest)
    | _ => ([], l)

def takeSegs (l : List Char) : List Char × List Char :=
  takeSegsF l.length l

/-- The replacement callback `repl` of `_replace_embedded_references`
(src/transformers.py:1275-1287) with `self._refs = None` (no definitive set is
ever loaded by this pipeline). -/
def embeddedRepl (tok : List Char) : List Char :=
  if is_reference_like tok then apply_y_naming tok else tok

/-- Worker for `_replace_embedded_references`: the left-to-right scan of
`_embedded_token_re.sub(repl, text)` for the pattern
`([A-Z0-9-]+(?:/[A-Z0-9-]+)+/?)`.  A match starting at a class character
consists of the maximal class run, at least one `/`-plus-run segment (greedy),
and an optional trailing slash; at a position where the segment group cannot
match, scanning resumes one character later, exactly as the backtracking
engine behaves on this pattern.  `fuel` (called with at least the length of
the list) only serves structural recursion; every step consumes at least one
character, so the guard never fires. -/
def rerF : Nat → List Char → List Char
  | 0, l => l
  | fuel + 1, l =>
    match l with
    | [] => []
    | c :: rest =>
      if clsChar c then
        let run := (c :: rest).takeWhile clsChar
        let r1 := (c :: rest).dropWhile clsChar
        let sr := takeSegs r1
        if sr.1.isEmpty then c :: rerF fuel rest
        else
          match sr.2 with
          | '/' :: fin' => embeddedRepl (run ++ sr.1 ++ ['/']) ++ rerF fuel fin'
          | fin => embeddedRepl (run ++ sr.1) ++ rerF fuel fin
      else c :: rerF fuel rest

/-- `YNamingTransformer._replace_embedded_references`
(src/transformers.py:1262-1290). -/
def replace_embedded_references (l : List Char) : List Char :=
  rerF l.length l

/-- `YNamingTransformer.apply_if_reference` (src/transformers.py:1229-1259)
with `self._refs = None`: a reference-like whole string is rewritten by
`_apply_y_naming`; otherwise embedded tokens are rewritten.  The
`try/except` around the embedded path cannot fire (the scan raises no
exception), so no error case appears. -/
def apply_if_reference (text : List Char) : List Char :=
  if is_reference_like text then apply_y_naming text
  else replace_embedded_references text

/-! ### Facts about the Python string helpers -/

theorem pySplit_ne_nil (sep : Char) (l : List Char) : pySplit sep l ≠ [] := by
  induction l with
  | nil => simp [pySplit]
  | cons c rest ih =>
    rw [pySplit]
    split
    · simp
    · match h : pySplit sep rest with
      | [] => exact absurd h ih
      | t :: ts => simp

theorem pySplit_length (sep : Char) (l : List Char) :
    (pySplit sep l).length = l.count sep + 1 := by
  induction l with
  | nil => simp [pySplit]
  | cons c rest ih =>
    rw [pySplit]
    by_cases h : c = sep
    · simp only [h, if_true, List.length_cons, ih, List.count_cons]
      simp
    · simp only [h, if_false]
      match hs : pySplit sep rest with
      | [] => exact absurd hs (pySplit_ne_nil sep rest)
      | t :: ts =>
        rw [hs] at ih
        simp only [List.length_cons] at ih ⊢
        rw [List.count_cons]
        simp [h, ih]

theorem pyJoin_pySplit (sep : Char) (l : List Char) :
    pyJoin sep (pySplit sep l) = l := by
  induction l with
  | nil => simp [pySplit, pyJoin]
  | cons c rest ih =>
    rw [pySplit]
    by_cases h : c = sep
    · simp only [h, if_true]
      match hs : pySplit sep rest with
      | [] => exact absurd hs (pySplit_ne_nil sep rest)
      | t :: ts =>
        rw [hs] at ih
        rw [pyJoin]
        simp only [List.nil_append]
        rw [ih]
    · simp only [h, if_false]
      match hs : pySplit sep rest with
      | [] => exact absurd hs (pySplit_ne_nil sep rest)
      | t :: ts =>
        rw [hs] at ih
        match ts with
        | [] => rw [pyJoin]; rw [pyJoin] at ih; rw [ih]
        | t2 :: ts2 =>
          rw [pyJoin]
          rw [pyJoin] at ih
          simp only [List.cons_append, ih]

theorem pySplit_no_sep (sep : Char) (l : List Char) (h : sep ∉ l) :
    pySplit sep l = [l] := by
  induction l with
  | nil => simp [pySplit]
  | cons c rest ih =>
    rw [pySplit]
    have hc : ¬(c = sep) := fun hh => h (hh ▸ List.mem_cons_self c rest)
    simp only [hc, if_false]
    rw [ih (fun hm => h (List.mem_cons_of_mem c hm))]

theorem pySplit_append_cons (sep : Char) (pre rest : List Char) (h : sep ∉ pre) :
    pySplit sep (pre ++ sep :: rest) = pre :: pySplit sep rest := by
  induction pre with
  | nil =>
    simp only [List.nil_append]
    rw [pySplit]
    simp
  | cons c p ih =>
    have hc : ¬(c = sep) := fun hh => h (hh ▸ List.mem_cons_self c p)
    simp only [List.cons_append]
    rw [pySplit]
    simp only [hc, if_false]
    rw [ih (fun hm => h (List.mem_cons_of_mem c hm))]

theorem pySplit_pyJoin (sep : Char) (ts : List (List Char)) (hne : ts ≠ [])
    (h : ∀ t ∈ ts, sep ∉ t) : pySplit sep (pyJoin sep ts) = ts := by
  induction ts with
  | nil => exact absurd rfl hne
  | cons t ts ih =>
    match ts with
    | [] =>
      rw [pyJoin]
      exact pySplit_no_sep sep t (h t (List.mem_cons_self t []))
    | t2 :: ts2 =>
      rw [pyJoin]
      rw [pySplit_append_cons sep t (pyJoin sep (t2 :: ts2))
        (h t (List.mem_cons_self t _))]
      rw [ih (by simp) (fun u hu => h u (List.mem_cons_of_mem t hu))]

theorem pyStrip_eq_self (l : List Char) (h : ∀ c ∈ l, pyIsSpace c = false) :
    pyStrip l = l := by
  unfold pyStrip
  have h1 : l.dropWhile pyIsSpace = l := by
    match l with
    | [] => rfl
    | c :: rest =>
      rw [List.dropWhile_cons_of_neg]
      simp [h c (List.mem_cons_self c rest)]
  rw [h1]
  have h2 : l.reverse.dropWhile pyIsSpace = l.reverse := by
    match hr : l.reverse with
    | [] => rfl
    | c :: rest =>
      rw [List.dropWhile_cons_of_neg]
      have : c ∈ l := by
        rw [← List.mem_reverse, hr]; exact List.mem_cons_self c rest
      simp [h c this]
  rw [h2, List.reverse_reverse]

theorem mem_pyJoin (sep : Char) (ts : List (List Char)) (c : Char)
    (h : c ∈ pyJoin sep ts) : c = sep ∨ ∃ t ∈ ts, c ∈ t := by
  induction ts with
  | nil => simp [pyJoin] at h
  | cons t ts ih =>
    match ts with
    | [] =>
      rw [pyJoin] at h
      exact Or.inr ⟨t, List.mem_cons_self t [], h⟩
    | t2 :: ts2 =>
      rw [pyJoin] at h
      rw [List.mem_append] at h
      rcases h with h | h
      · exact Or.inr ⟨t, List.mem_cons_self t _, h⟩
      · rcases List.mem_cons.mp h with h | h
        · exact Or.inl h
        · rcases ih h with h | ⟨u, hu, hc⟩
          · exact Or.inl h
          · exact Or.inr ⟨u, List.mem_cons_of_mem t hu, hc⟩

theorem upChar_upChar (c : Char) : upChar (upChar c) = upChar c := by
  by_cases h : ('a' ≤ c && c ≤ 'z') = true
  · rw [Bool.and_eq_true] at h
    obtain ⟨h1, h2⟩ := h
    have hn1 : 97 ≤ c.toNat := of_decide_eq_true h1
    have hn2 : c.toNat ≤ 122 := of_decide_eq_true h2
    have hc : Char.ofNat c.toNat = c := Char.ofNat_toNat c
    rw [← hc]
    generalize c.toNat = n at hn1 hn2
    interval_cases n <;> decide
  · have hfix : upChar c = c := by unfold upChar; rw [if_neg h]
    rw [hfix, hfix]

theorem asciiAlpha_upChar (c : Char) (h : asciiAlpha c = true) :
    asciiAlpha (upChar c) = true := by
  by_cases hl : ('a' ≤ c && c ≤ 'z') = true
  · rw [Bool.and_eq_true] at hl
    obtain ⟨h1, h2⟩ := hl
    have hn1 : 97 ≤ c.toNat := of_decide_eq_true h1
    have hn2 : c.toNat ≤ 122 := of_decide_eq_true h2
    have hc : Char.ofNat c.toNat = c := Char.ofNat_toNat c
    rw [← hc]
    generalize c.toNat = n at hn1 hn2
    interval_cases n <;> decide
  · have hfix : upChar c = c := by unfold upChar; rw [if_neg hl]
    rw [hfix]; exact h

theorem tokChar_toNat_lb (c : Char) (h : tokChar c = true) : 45 ≤ c.toNat := by
  unfold tokChar asciiAlpha asciiDigit at h
  rw [Bool.or_eq_true] at h
  rcases h with h | h
  · rw [Bool.or_eq_true] at h
    rcases h with h | h
    · rw [Bool.or_eq_true] at h
      rcases h with h | h
      · rw [Bool.and_eq_true] at h
        have h65 : (65 : Nat) ≤ c.toNat := of_decide_eq_true h.1
        omega
      · rw [Bool.and_eq_true] at h
        have h97 : (97 : Nat) ≤ c.toNat := of_decide_eq_true h.1
        omega
    · rw [Bool.and_eq_true] at h
      have h48 : (48 : Nat) ≤ c.toNat := of_decide_eq_true h.1
      omega
  · have : c = '-' := of_decide_eq_true h
    rw [this]; decide

theorem asciiAlpha_tokChar (c : Char) (h : asciiAlpha c = true) : tokChar c = true := by
  unfold tokChar
  rw [h]
  rfl

theorem pyIsSpace_eq_false_of_tokChar (c : Char) (h : tokChar c = true) :
    pyIsSpace c = false := by
  have hlb := tokChar_toNat_lb c h
  unfold pyIsSpace
  simp only [Bool.or_eq_false_iff, decide_eq_false_iff_not]
  refine ⟨⟨⟨⟨⟨fun hd => ?_, fun hd => ?_⟩, fun hd => ?_⟩, fun hd => ?_⟩,
    fun hd => ?_⟩, fun hd => ?_⟩ <;>
    (rw [hd] at hlb; exact absurd hlb (by decide))

theorem zip_map_self (f : List Char → List Char) (l : List (List Char)) :
    l.zip (l.map f) = l.map (fun a => (a, f a)) := by
  induction l with
  | nil => rfl
  | cons a l ih => simp [List.zip_cons_cons, ih]

theorem token_elem_check (t : List Char) :
    ((t != pyStrip t || (pyStrip t).isEmpty || !((pyStrip t).all tokChar)) = false)
      ↔ pyStrip t = t ∧ t ≠ [] ∧ t.all tokChar = true := by
  simp only [Bool.or_eq_false_iff, bne_eq_false_iff_eq, List.isEmpty_eq_false,
    Bool.not_eq_false]
  constructor
  · rintro ⟨⟨h1, h2⟩, h3⟩
    have h3' : (pyStrip t).all tokChar = true := by
      cases hcase : (pyStrip t).all tokChar
      · rw [hcase] at h3; simp at h3
      · rfl
    refine ⟨h1.symm, ?_, ?_⟩
    · rw [h1]; exact h2
    · rw [h1]; exact h3'
  · rintro ⟨h1, h2, h3⟩
    refine ⟨⟨h1.symm, ?_⟩, ?_⟩
    · rw [h1]; exact h2
    · rw [h1, h3]; rfl

/-- The token loop of `_is_reference_like` (lines 1529-1535) accepts exactly
the lists all of whose tokens are whitespace-free, non-empty and within the
class `[A-Za-z0-9-]`. -/
theorem tokens_check_iff (raw : List (List Char)) :
    ((raw.zip (raw.map pyStrip)).any
        (fun p => p.1 != p.2 || p.2.isEmpty || !(p.2.all tokChar))) = false
      ↔ ∀ t ∈ raw, pyStrip t = t ∧ t ≠ [] ∧ t.all tokChar = true := by
  induction raw with
  | nil => simp
  | cons t ts ih =>
    rw [List.map_cons, List.zip_cons_cons, List.any_cons, Bool.or_eq_false_iff, ih]
    constructor
    · rintro ⟨h1, h2⟩ u hu
      rcases List.mem_cons.mp hu with rfl | hu
      · exact (token_elem_check u).mp h1
      · exact h2 u hu
    · intro h
      refine ⟨(token_elem_check t).mpr (h t (List.mem_cons_self t ts)), ?_⟩
      intro u hu
      exact h u (List.mem_cons_of_mem t hu)

theorem headI_map_pyStrip (raw : List (List Char)) :
    (raw.map pyStrip).headI = pyStrip raw.headI := by
  cases raw <;> rfl

theorem headI_mem_of_ne_nil {α : Type} [Inhabited α] (l : List α) (h : l ≠ []) :
    l.headI ∈ l := by
  cases l with
  | nil => exact absurd rfl h
  | cons a ts => exact List.mem_cons_self a ts

/-- Characterization of `_is_reference_like` as a conjunction of conditions on
the stripped string, its slash count, its tokens and its first token. -/
theorem is_reference_like_iff (l : List Char) :
    is_reference_like l = true ↔
      (2 ≤ (pyStrip l).length ∧ (pyStrip l).length ≤ 250) ∧
      containsWordAPT l = false ∧
      (1 ≤ (pyStrip l).count '/' ∧ (pyStrip l).count '/' ≤ 9) ∧
      (∀ t ∈ pySplit '/' (pyStrip l), pyStrip t = t ∧ t ≠ [] ∧ t.all tokChar = true) ∧
      ((pySplit '/' (pyStrip l)).headI ≠ [] ∧
        (pySplit '/' (pyStrip l)).headI.all asciiAlpha = true) ∧
      (1 < (pySplit '/' (pyStrip l)).headI.length ∨
        (pySplit '/' (pyStrip l)).headI = ['S']) := by
  simp only [is_reference_like]
  set s := pyStrip l with hs
  set raw := pySplit '/' s with hraw
  have hlen : (raw.map pyStrip).length = raw.length := List.length_map raw pyStrip
  have hcount : raw.length = s.count '/' + 1 := pySplit_length '/' s
  have hrawne : raw ≠ [] := pySplit_ne_nil '/' s
  have hheadI : ∀ (hc : ∀ t ∈ raw, pyStrip t = t ∧ t ≠ [] ∧ t.all tokChar = true),
      (raw.map pyStrip).headI = raw.headI := by
    intro hc
    rw [headI_map_pyStrip]
    exact (hc raw.headI (headI_mem_of_ne_nil raw hrawne)).1
  split_ifs with h1 h2 h3 h4 h5 h6 h7
  · simp only [Bool.or_eq_true, decide_eq_true_eq] at h1
    simp only [false_iff]
    intro hc
    omega
  · simp only [false_iff]
    intro hc
    rw [hc.2.1] at h2
    exact absurd h2 (by simp)
  · simp only [Bool.or_eq_true, decide_eq_true_eq] at h3
    simp only [false_iff]
    intro hc
    omega
  · simp only [Bool.or_eq_true, decide_eq_true_eq, hlen] at h4
    simp only [false_iff]
    intro hc
    omega
  · simp only [false_iff]
    intro hc
    have := (tokens_check_iff raw).mpr hc.2.2.2.1
    rw [this] at h5
    exact absurd h5 (by simp)
  · simp only [false_iff]
    intro hc
    rw [hheadI hc.2.2.2.1] at h6
    obtain ⟨hne, hal⟩ := hc.2.2.2.2.1
    have hie : raw.headI.isEmpty = false := by
      cases hcase : raw.headI.isEmpty
      · rfl
      · exact absurd (List.isEmpty_iff.mp hcase) hne
    rw [hie, hal] at h6
    simp at h6
  · simp only [true_iff]
    simp only [Bool.or_eq_true, decide_eq_true_eq, not_or, not_lt] at h1 h3
    have htoks : ∀ t ∈ raw, pyStrip t = t ∧ t ≠ [] ∧ t.all tokChar = true := by
      refine (tokens_check_iff raw).mp ?_
      cases hcase : ((raw.zip (raw.map pyStrip)).any
          (fun p => p.1 != p.2 || p.2.isEmpty || !(p.2.all tokChar)))
      · rfl
      · exact absurd hcase h5
    have hAPT : containsWordAPT l = false := by
      cases hcase : containsWordAPT l
      · rfl
      · exact absurd hcase h2
    have hhd := hheadI htoks
    rw [hhd] at h6 h7
    have h6' : (!raw.headI.isEmpty && raw.headI.all asciiAlpha) = true := by
      cases hcase : (!raw.headI.isEmpty && raw.headI.all asciiAlpha)
      · rw [hcase] at h6; simp at h6
      · rfl
    rw [Bool.and_eq_true] at h6'
    obtain ⟨h6a, h6b⟩ := h6'
    have hne : raw.headI ≠ [] := by
      intro hh
      rw [hh] at h6a
      simp at h6a
    simp only [Bool.or_eq_true, decide_eq_true_eq] at h7
    exact ⟨⟨h1.1, h1.2⟩, hAPT, ⟨h3.1, h3.2⟩, htoks, ⟨hne, h6b⟩, h7⟩
  · simp only [false_iff]
    intro hc
    rw [hheadI hc.2.2.2.1] at h7
    simp only [Bool.or_eq_true, decide_eq_true_eq, not_or] at h7
    rcases hc.2.2.2.2.2 with hlt | hS
    · exact h7.1 hlt
    · exact h7.2 (by rw [hS])

/-- The prefix rewrite rule of `_apply_y_naming`, applied to the uppercased
first token: `PARL` becomes `YUKP`; a prefix already starting with `Y` is
kept; otherwise `Y` is prepended and the result truncated to its first four
characters when longer than four. -/
def yPref (pref : List Char) : List Char :=
  if pref = "PARL".toList then "YUKP".toList
  else if pref.headI = 'Y' && !pref.isEmpty then pref
  else if 4 < ('Y' :: pref).length then ('Y' :: pref).take 4 else 'Y' :: pref

/-- On a reference-like string, `_apply_y_naming` rewrites the (stripped)
string to the `yPref` of its uppercased first token, followed by the
slash-joined remaining tokens, which are left untouched. -/
theorem apply_y_naming_decomp (l : List Char) (h : is_reference_like l = true) :
    apply_y_naming l =
      yPref ((pySplit '/' (pyStrip l)).headI.map upChar) ++
        '/' :: pyJoin '/' (pySplit '/' (pyStrip l)).tail := by
  obtain ⟨⟨hl2, _⟩, _, ⟨hc1, _⟩, htoks, ⟨hne, hal⟩, _⟩ := (is_reference_like_iff l).mp h
  simp only [apply_y_naming, yPref]
  have hsne : ¬(pyStrip l = []) := by
    intro hh; rw [hh] at hl2; simp at hl2
  rw [if_neg hsne]
  set s := pyStrip l
  set raw := pySplit '/' s with hraw
  have hrawlen : raw.length = s.count '/' + 1 := pySplit_length '/' s
  have hlen0 : ¬(raw.length = 0) := by omega
  rw [if_neg hlen0]
  have hh0 : pyStrip raw.headI = raw.headI :=
    (htoks raw.headI (headI_mem_of_ne_nil raw (pySplit_ne_nil _ _))).1
  have hie : raw.headI.isEmpty = false := by
    cases hcase : raw.headI.isEmpty
    · rfl
    · exact absurd (List.isEmpty_iff.mp hcase) hne
  have halpha : pyIsAlpha (pyStrip raw.headI) = true := by
    rw [hh0]; unfold pyIsAlpha; rw [hal, hie]; rfl
  rw [halpha]
  have h1lt : 1 < raw.length := by omega
  rw [if_pos h1lt, hh0]
  simp

theorem yPref_ne_nil (Q : List Char) : yPref Q ≠ [] := by
  unfold yPref
  split_ifs with h1 h2 h3
  · simp
  · rw [Bool.and_eq_true] at h2
    intro hh
    rw [hh] at h2
    simp at h2
  · intro hh
    have : (('Y' :: Q).take 4).length = 0 := by rw [hh]; rfl
    rw [List.length_take] at this
    simp at this
  · simp

theorem yPref_headI (Q : List Char) : (yPref Q).headI = 'Y' := by
  unfold yPref
  split_ifs with h1 h2 h3
  · rfl
  · rw [Bool.and_eq_true] at h2
    have := of_decide_eq_true h2.1
    cases Q with
    | nil => simp at h2
    | cons a t => exact this
  · rfl
  · rfl

theorem yPref_all_alpha (Q : List Char) (h : Q.all asciiAlpha = true) :
    (yPref Q).all asciiAlpha = true := by
  unfold yPref
  split_ifs with h1 h2 h3
  · decide
  · exact h
  · rw [List.all_eq_true] at h ⊢
    intro c hc
    have hc' : c ∈ 'Y' :: Q := List.take_subset 4 _ hc
    rcases List.mem_cons.mp hc' with rfl | hc'
    · decide
    · exact h c hc'
  · rw [List.all_eq_true] at h ⊢
    intro c hc
    rcases List.mem_cons.mp hc with rfl | hc'
    · decide
    · exact h c hc'

theorem map_upChar_map_upChar (P : List Char) :
    (P.map upChar).map upChar = P.map upChar := by
  rw [List.map_map]
  have : upChar ∘ upChar = upChar := funext upChar_upChar
  rw [this]

theorem map_upChar_fix_yPref (Q : List Char) (h : Q.map upChar = Q) :
    (yPref Q).map upChar = yPref Q := by
  unfold yPref
  split_ifs with h1 h2 h3
  · decide
  · exact h
  · rw [List.map_take, List.map_cons]
    have hY : upChar 'Y' = 'Y' := by decide
    rw [hY, h]
  · rw [List.map_cons]
    have hY : upChar 'Y' = 'Y' := by decide
    rw [hY, h]

/-- C6 core: on a reference-like string with no surrounding whitespace, the
normalizer rewrites the first slash-delimited token by the `yPref` rule on its
uppercased form and leaves the remainder after the first slash untouched. -/
theorem y_naming_decomposes (s : List Char) (h : is_reference_like s = true)
    (hs : pyStrip s = s) :
    ∃ P rest, s = P ++ '/' :: rest ∧ '/' ∉ P ∧
      apply_if_reference s = yPref (P.map upChar) ++ '/' :: rest := by
  have h' := (is_reference_like_iff s).mp h
  rw [hs] at h'
  obtain ⟨⟨hl2, _⟩, _, ⟨hc1, _⟩, htoks, _, _⟩ := h'
  have hrawlen : (pySplit '/' s).length = s.count '/' + 1 := pySplit_length '/' s
  have hjoin := pyJoin_pySplit '/' s
  have hdecomp := apply_y_naming_decomp s h
  rw [hs] at hdecomp
  cases hrw : pySplit '/' s with
  | nil => exact absurd hrw (pySplit_ne_nil '/' s)
  | cons p0 rtail =>
    cases rtail with
    | nil =>
      rw [hrw] at hrawlen
      simp at hrawlen
      omega
    | cons t1 ts =>
      refine ⟨p0, pyJoin '/' (t1 :: ts), ?_, ?_, ?_⟩
      · rw [hrw] at hjoin
        rw [← hjoin, pyJoin]
      · intro hmem
        have hall := (htoks p0 (by rw [hrw]; exact List.mem_cons_self p0 _)).2.2
        have := List.all_eq_true.mp hall '/' hmem
        exact absurd this (by decide)
      · have : apply_if_reference s = apply_y_naming s := by
          unfold apply_if_reference
          rw [if_pos h]
        rw [this, hdecomp, hrw]
        rfl

theorem mem_of_mem_tail' {α : Type} (a : α) (l : List α) (h : a ∈ l.tail) : a ∈ l := by
  cases l with
  | nil => simp at h
  | cons b t => exact List.mem_cons_of_mem b h

/-- C7 amended core: when both a reference-like string and its rewrite pass
the reference-like test, the normalizer is idempotent on it. -/
theorem normalize_idem_of_result_ref_like (s : List Char)
    (h1 : is_reference_like s = true)
    (h2 : is_reference_like (apply_if_reference s) = true) :
    apply_if_reference (apply_if_reference s) = apply_if_reference s := by
  obtain ⟨⟨hl2, _⟩, _, ⟨hc1, _⟩, htoks, ⟨hne0, hal0⟩, _⟩ := (is_reference_like_iff s).mp h1
  have hy : apply_if_reference s = apply_y_naming s := by
    unfold apply_if_reference
    rw [if_pos h1]
  have hdecomp := apply_y_naming_decomp s h1
  set raw := pySplit '/' (pyStrip s) with hraw
  set P0 := raw.headI with hP0
  set newP := yPref (P0.map upChar) with hnewP
  set rest := pyJoin '/' raw.tail with hrest
  have hQfix : (P0.map upChar).map upChar = P0.map upChar := map_upChar_map_upChar P0
  have hQal : (P0.map upChar).all asciiAlpha = true := by
    rw [List.all_eq_true] at hal0 ⊢
    intro c hc
    obtain ⟨a, ha, rfl⟩ := List.mem_map.mp hc
    exact asciiAlpha_upChar a (hal0 a ha)
  have hNal : newP.all asciiAlpha = true := yPref_all_alpha _ hQal
  have hNne : newP ≠ [] := yPref_ne_nil _
  have hNhd : newP.headI = 'Y' := yPref_headI _
  have hNfix : newP.map upChar = newP := map_upChar_fix_yPref _ hQfix
  have hNslash : '/' ∉ newP := by
    intro hmem
    have := List.all_eq_true.mp hNal '/' hmem
    exact absurd this (by decide)
  have hrestchars : ∀ c ∈ rest, pyIsSpace c = false := by
    intro c hc
    rcases mem_pyJoin '/' raw.tail c hc with rfl | ⟨t, ht, hct⟩
    · decide
    · have htok := htoks t (mem_of_mem_tail' t raw ht)
      exact pyIsSpace_eq_false_of_tokChar c (List.all_eq_true.mp htok.2.2 c hct)
  have hyval : apply_if_reference s = newP ++ '/' :: rest := by rw [hy, hdecomp]
  have hychars : ∀ c ∈ newP ++ '/' :: rest, pyIsSpace c = false := by
    intro c hc
    rcases List.mem_append.mp hc with hc | hc
    · exact pyIsSpace_eq_false_of_tokChar c
        (asciiAlpha_tokChar c (List.all_eq_true.mp hNal c hc))
    · rcases List.mem_cons.mp hc with rfl | hc
      · decide
      · exact hrestchars c hc
  have hystrip : pyStrip (newP ++ '/' :: rest) = newP ++ '/' :: rest :=
    pyStrip_eq_self _ hychars
  have hNstrip : pyStrip newP = newP := by
    refine pyStrip_eq_self newP ?_
    intro c hc
    exact pyIsSpace_eq_false_of_tokChar c
      (asciiAlpha_tokChar c (List.all_eq_true.mp hNal c hc))
  have h2' : is_reference_like (newP ++ '/' :: rest) = true := by
    rw [← hyval]; exact h2
  rw [hyval]
  unfold apply_if_reference
  rw [if_pos h2']
  simp only [apply_y_naming]
  rw [hystrip]
  have hyne : ¬((newP ++ '/' :: rest : List Char) = []) := by
    intro hh
    rcases List.append_eq_nil.mp hh with ⟨_, hcons⟩
    exact absurd hcons (by simp)
  rw [if_neg hyne]
  rw [pySplit_append_cons '/' newP rest hNslash]
  have hplen : ¬((newP :: pySplit '/' rest).length = 0) := by simp
  rw [if_neg hplen]
  have hheadI : (newP :: pySplit '/' rest).headI = newP := rfl
  rw [hheadI, hNstrip]
  have halphaN : pyIsAlpha newP = true := by
    unfold pyIsAlpha
    have hie : newP.isEmpty = false := by
      cases hcase : newP.isEmpty
      · rfl
      · exact absurd (List.isEmpty_iff.mp hcase) hNne
    rw [hie, hNal]
    rfl
  rw [halphaN]
  simp only [Bool.not_true, Bool.false_eq_true, if_false]
  have hnotPARL : ¬(newP.map upChar = "PARL".toList) := by
    rw [hNfix]
    intro hh
    have := congrArg List.headI hh
    rw [hNhd] at this
    exact absurd this (by decide)
  rw [if_neg hnotPARL]
  have hcond2 : ((newP.map upChar).headI = 'Y' && !(newP.map upChar).isEmpty) = true := by
    rw [hNfix, hNhd]
    have hie : newP.isEmpty = false := by
      cases hcase : newP.isEmpty
      · rfl
      · exact absurd (List.isEmpty_iff.mp hcase) hNne
    rw [hie]
    decide
  rw [if_pos hcond2]
  have hlen2 : 1 < (newP :: pySplit '/' rest).length := by
    simp only [List.length_cons]
    have := pySplit_length '/' rest
    omega
  rw [if_pos hlen2]
  have htail : (newP :: pySplit '/' rest).tail = pySplit '/' rest := rfl
  rw [htail, pyJoin_pySplit, hNfix]

/-! ### The specification's reference-like predicate (for comparison) -/

/-- A token as the specification describes it: non-empty, within
`[A-Za-z0-9-]`, carrying no leading or trailing whitespace. -/
def spec_token_ok (t : List Char) : Bool :=
  !t.isEmpty && t.all tokChar && (pyStrip t == t)

/-- The specification's first-token rule: purely alphabetic of length at
least two, or exactly the single letter `S`. -/
def spec_first_ok (t : List Char) : Bool :=
  (t.all asciiAlpha && 2 ≤ t.length) || t == ['S']

/-- The reference-like predicate exactly as the specification words it, with
every condition read off the original string. -/
def spec_reference_like (l : List Char) : Bool :=
  (2 ≤ l.length && l.length ≤ 250) &&
  (1 ≤ l.count '/' && l.count '/' ≤ 9) &&
  ((pySplit '/' l).all spec_token_ok) &&
  spec_first_ok ((pySplit '/' l).headI) &&
  !containsWordAPT l

/-- The specification's conditions without the `APT/` exclusion, for applying
them to the whitespace-trimmed string. -/
def spec_core (l : List Char) : Bool :=
  (2 ≤ l.length && l.length ≤ 250) &&
  (1 ≤ l.count '/' && l.count '/' ≤ 9) &&
  ((pySplit '/' l).all spec_token_ok) &&
  spec_first_ok ((pySplit '/' l).headI)

theorem first_tok_equiv (t : List Char) :
    ((t ≠ [] ∧ t.all asciiAlpha = true) ∧ (1 < t.length ∨ t = ['S'])) ↔
      ((t.all asciiAlpha = true ∧ 2 ≤ t.length) ∨ t = ['S']) := by
  constructor
  · rintro ⟨⟨hne, hal⟩, hd⟩
    rcases hd with hlt | hS
    · exact Or.inl ⟨hal, by omega⟩
    · exact Or.inr hS
  · rintro (⟨hal, h2⟩ | rfl)
    · have hne : t ≠ [] := by
        intro hh
        rw [hh] at h2
        simp at h2
      exact ⟨⟨hne, hal⟩, Or.inl (by
        have : t.length ≠ 0 := fun hh => hne (List.length_eq_zero.mp hh)
        omega)⟩
    · exact ⟨⟨by simp, by decide⟩, Or.inr rfl⟩

theorem spec_token_ok_iff (t : List Char) :
    spec_token_ok t = true ↔ (pyStrip t = t ∧ t ≠ [] ∧ t.all tokChar = true) := by
  unfold spec_token_ok
  simp only [Bool.and_eq_true, beq_iff_eq]
  constructor
  · rintro ⟨⟨hne, hcls⟩, hstr⟩
    refine ⟨hstr, ?_, hcls⟩
    intro hh
    rw [hh] at hne
    simp at hne
  · rintro ⟨hstr, hne, hcls⟩
    refine ⟨⟨?_, hcls⟩, hstr⟩
    cases hcase : t.isEmpty
    · rfl
    · exact absurd (List.isEmpty_iff.mp hcase) hne

theorem spec_first_ok_iff (t : List Char) :
    spec_first_ok t = true ↔
      ((t.all asciiAlpha = true ∧ 2 ≤ t.length) ∨ t = ['S']) := by
  unfold spec_first_ok
  simp only [Bool.or_eq_true, Bool.and_eq_true, decide_eq_true_eq, beq_iff_eq]

theorem spec_core_iff (s : List Char) :
    spec_core s = true ↔
      (2 ≤ s.length ∧ s.length ≤ 250) ∧
      (1 ≤ s.count '/' ∧ s.count '/' ≤ 9) ∧
      (∀ t ∈ pySplit '/' s, pyStrip t = t ∧ t ≠ [] ∧ t.all tokChar = true) ∧
      ((pySplit '/' s).headI ≠ [] ∧ (pySplit '/' s).headI.all asciiAlpha = true) ∧
      (1 < (pySplit '/' s).headI.length ∨ (pySplit '/' s).headI = ['S']) := by
  unfold spec_core
  simp only [Bool.and_eq_true, decide_eq_true_eq]
  constructor
  · rintro ⟨⟨⟨⟨h1a, h1b⟩, h2a, h2b⟩, htoks⟩, hfirst⟩
    have htoks' : ∀ t ∈ pySplit '/' s, pyStrip t = t ∧ t ≠ [] ∧ t.all tokChar = true :=
      fun t ht => (spec_token_ok_iff t).mp (List.all_eq_true.mp htoks t ht)
    have hfe := (first_tok_equiv ((pySplit '/' s).headI)).mpr
      ((spec_first_ok_iff _).mp hfirst)
    exact ⟨⟨h1a, h1b⟩, ⟨h2a, h2b⟩, htoks', ⟨hfe.1.1, hfe.1.2⟩, hfe.2⟩
  · rintro ⟨⟨h1a, h1b⟩, ⟨h2a, h2b⟩, htoks, ⟨hne, hal⟩, hd⟩
    refine ⟨⟨⟨⟨h1a, h1b⟩, h2a, h2b⟩, ?_⟩, ?_⟩
    · exact List.all_eq_true.mpr
        (fun t ht => (spec_token_ok_iff t).mpr (htoks t ht))
    · exact (spec_first_ok_iff _).mpr ((first_tok_equiv _).mp ⟨⟨hne, hal⟩, hd⟩)

/-- C5 counterexample: the claimed equivalence between `_is_reference_like`
and the specification's conditions fails at `" AB/1"`, which the code accepts
(it strips surrounding whitespace first) while the specification's token
condition rejects it (the first token of the original string carries a
leading space). -/
theorem c5_reference_like_counterexample :
    ¬(is_reference_like (" AB/1".toList) = true ↔
      spec_reference_like (" AB/1".toList) = true) := by
  decide

/-- C5 (amended): `_is_reference_like` holds iff the original string passes
the case-insensitive word-bounded `APT/` exclusion and the
whitespace-trimmed string satisfies the specification's remaining
conditions: length in `[2,250]`, between 1 and 9 slashes, every
slash-delimited token non-empty, whitespace-free and within `[A-Za-z0-9-]`,
and a first token that is purely alphabetic of length at least 2 or exactly
`S`. -/
theorem c5_reference_like_amended (l : List Char) :
    is_reference_like l = true ↔
      (containsWordAPT l = false ∧ spec_core (pyStrip l) = true) := by
  rw [is_reference_like_iff l, spec_core_iff (pyStrip l)]
  tauto

/-- C5 amended witness at a concrete accepted reference. -/
theorem c5_reference_like_amended_witness :
    containsWordAPT ("ABC/1".toList) = false ∧
      spec_core (pyStrip ("ABC/1".toList)) = true :=
  (c5_reference_like_amended ("ABC/1".toList)).mp (by decide)

/-- C6: for every reference-like string (no surrounding whitespace), the
normalizer rewrites it to the `yPref` of its uppercased first token — `YUKP`
for `PARL`, unchanged when already `Y`-initial, otherwise `Y`-prefixed and
truncated to four characters — joined by `/` to the untouched remainder; in
particular `PARL/123` becomes `YUKP/123`. -/
theorem c6_y_naming_prefix_rewrite :
    (∀ s : List Char, is_reference_like s = true → pyStrip s = s →
      ∃ P rest, s = P ++ '/' :: rest ∧ '/' ∉ P ∧
        apply_if_reference s = yPref (P.map upChar) ++ '/' :: rest) ∧
    apply_if_reference ("PARL/123".toList) = "YUKP/123".toList := by
  refine ⟨y_naming_decomposes, ?_⟩
  decide

/-- C6 witness: the decomposition applied to `PARL/123`. -/
theorem c6_y_naming_prefix_rewrite_witness :
    ∃ P rest, ("PARL/123".toList : List Char) = P ++ '/' :: rest ∧ '/' ∉ P ∧
      apply_if_reference ("PARL/123".toList) = yPref (P.map upChar) ++ '/' :: rest :=
  c6_y_naming_prefix_rewrite.1 ("PARL/123".toList) (by decide) (by decide)

/-- The 250-character reference whose rewrite grows to 251 characters. -/
def c7_refstring : List Char := "AB/x/PARL/".toList ++ List.replicate 240 '1'

set_option maxRecDepth 1000000 in
/-- C7 counterexample: `c7_refstring` is reference-like (250 characters), but
its rewrite `YAB/x/PARL/1…1` has 251 characters, fails the reference-like
test, and the second pass rewrites the embedded `PARL/1…1` token to
`YUKP/1…1`, so the normalizer is not idempotent on it. -/
theorem c7_idempotence_counterexample :
    is_reference_like c7_refstring = true ∧
    apply_if_reference (apply_if_reference c7_refstring) ≠
      apply_if_reference c7_refstring := by
  constructor
  · decide
  · decide

/-- C7 (amended): the normalizer is idempotent on every reference-like
string whose rewrite still passes the reference-like test (which fails only
when the rewrite exceeds the 250-character bound). -/
theorem c7_normalize_idem_amended (s : List Char)
    (h1 : is_reference_like s = true)
    (h2 : is_reference_like (apply_if_reference s) = true) :
    apply_if_reference (apply_if_reference s) = apply_if_reference s :=
  normalize_idem_of_result_ref_like s h1 h2

/-- C7 amended witness at `ABC/1`. -/
theorem c7_normalize_idem_amended_witness :
    apply_if_reference (apply_if_reference ("ABC/1".toList)) =
      apply_if_reference ("ABC/1".toList) :=
  c7_normalize_idem_amended ("ABC/1".toList) (by decide) (by decide)

/-- C8: a string that fails the whole-string reference-like test goes
through the embedded-token scan, which rewrites exactly the embedded
reference-like tokens in place; in particular `ABC/1 DEF` is not
reference-like as a whole, yet normalizes to `YABC/1 DEF`. -/
theorem c8_embedded_rewrite :
    (∀ s : List Char, is_reference_like s = false →
      apply_if_reference s = replace_embedded_references s) ∧
    is_reference_like ("ABC/1 DEF".toList) = false ∧
    apply_if_reference ("ABC/1 DEF".toList) = "YABC/1 DEF".toList := by
  refine ⟨?_, by decide, by decide⟩
  intro s hs
  unfold apply_if_reference
  have hcond : ¬(is_reference_like s = true) := by
    rw [hs]
    simp
  rw [if_neg hcond]

/-- C8 witness: the embedded scan at `ABC/1 DEF`. -/
theorem c8_embedded_rewrite_witness :
    apply_if_reference ("ABC/1 DEF".toList) =
      replace_embedded_references ("ABC/1 DEF".toList) :=
  c8_embedded_rewrite.1 ("ABC/1 DEF".toList) (by decide)

/-! ### Record mapper: closure-state derivation (src/transformers.py:263-300) -/

/-- Model of `datetime.strptime(d, "%Y-%m-%d").strftime("%Y")`: a
`YYYY-MM-DD` digit string with a month in 1..12 and a day in 1..31 yields its
year digits, anything else raises (modelled as `none`).  (strptime also
checks the day against the month length; that refinement is irrelevant to
the inputs used here.) -/
def parse_year (d : List Char) : Option (List Char) :=
  match d with
  | [y1, y2, y3, y4, h1, m1, m2, h2, d1, d2] =>
    if h1 = '-' && h2 = '-' &&
        [y1, y2, y3, y4, m1, m2, d1, d2].all asciiDigit &&
        (let mv := (m1.toNat - 48) * 10 + (m2.toNat - 48)
         1 ≤ mv && mv ≤ 12) &&
        (let dv := (d1.toNat - 48) * 10 + (d2.toNat - 48)
         1 ≤ dv && dv ≤ 31)
    then some [y1, y2, y3, y4] else none
  | _ => none

/-- The closure-state block of `convert_to_json` (src/transformers.py:263-300)
for a record at `catalogueLevel ≥ 9`, translated statement by statement.
`access_status` is the text of `access_status/value[@lang='neutral']` (or
`None`), `closed_until` the text of the `closed_until` element, and
`heldBy_information` the institution name.  The result is
`(closureStatus, closureCode, closureType)`; the outer `none` models the
exceptions the source can raise (`AttributeError` when `closed_until` is
absent for a `CLOSED` record, `ValueError` from `strptime`).  Levels ≤ 8
never assign the closure variables at all (they would leak from the previous
loop iteration), modelled as the outer `none` as well.

The source lines 287-295 sit inside the `else` branch of
`if closureStatus == 'D'` (line 282); their conditions repeat
`closureStatus == 'D'`, which is false there, so the `UK Parliament`
override at lines 292-295 is unreachable.  The translation keeps those dead
conditions verbatim. -/
def derive_closure (catalogueLevel : Int) (access_status : Option (List Char))
    (closed_until : Option (List Char)) (heldBy_information : Option (List Char)) :
    Option (Option (List Char) × Option (List Char) × Option (List Char)) :=
  if 9 ≤ catalogueLevel then
    let cs0 := access_status
    let cs :=
      if cs0 = some ("OPEN".toList) then some ("O".toList)
      else if cs0 = some ("CLOSED".toList) then some ("D".toList)
      else cs0
    let codeRes : Option (Option (List Char)) :=
      if cs = some ("D".toList) then
        match closed_until with
        | none => none
        | some d =>
          match parse_year d with
          | none => none
          | some y => some (some y)
      else some none
    match codeRes with
    | none => none
    | some cc =>
      let res :=
        if cs = some ("D".toList) then (cs, cc, some ("U".toList))
        else
          let ct : Option (List Char) :=
            if cs = some ("D".toList) then some ("U".toList) else none
          if cs = some ("D".toList) ∧ heldBy_information = some ("UK Parliament".toList)
          then (some ("U".toList), none, none)
          else (cs, cc, ct)
      some (if catalogueLevel ≤ 8 then (none, none, none) else res)
  else none

/-- C1: at catalogue level 9 with raw status `CLOSED`, `closed_until`
2030-01-01 and holding institution `UK Parliament`, the mapper emits
`closureStatus = 'D'`, `closureCode = "2030"`, `closureType = 'U'` — not the
`HeldAtParliament('U')` override with nulled code and type that the
specification requires: the override at src/transformers.py:292-295 is
unreachable dead code. -/
theorem c1_parliament_closed_emits_d :
    derive_closure 9 (some ("CLOSED".toList)) (some ("2030-01-01".toList))
        (some ("UK Parliament".toList)) =
      some (some ("D".toList), some ("2030".toList), some ("U".toList)) ∧
    derive_closure 9 (some ("CLOSED".toList)) (some ("2030-01-01".toList))
        (some ("UK Parliament".toList)) ≠
      some (some ("U".toList), none, none) := by
  constructor
  · decide
  · decide

/-! ### Record mapper: empty-field pruning and record accumulation
(src/transformers.py:882-925) -/

/-- JSON-like values as built by `convert_to_json`. -/
inductive JVal where
  | null : JVal
  | bool : Bool → JVal
  | num : Int → JVal
  | str : List Char → JVal
  | arr : List JVal → JVal
  | obj : List (String × JVal) → JVal

/-- The `isinstance(cv, (list, dict)) and len(cv) == 0` test of
`_clean_none`. -/
def isEmptyContainer : JVal → Bool
  | .arr [] => true
  | .obj [] => true
  | _ => false

mutual
/-- `_clean_none` (src/transformers.py:882-910): recursively remove `None`
values and containers that become empty; `none` means the value itself is
removed. -/
def clean_none : JVal → Option JVal
  | .null => none
  | .obj kvs =>
    let new := clean_fields kvs
    if new.isEmpty then none else some (.obj new)
  | .arr items =>
    let nl := clean_items items
    if nl.isEmpty then none else some (.arr nl)
  | .bool b => some (.bool b)
  | .num n => some (.num n)
  | .str s => some (.str s)

/-- The dict loop of `_clean_none`. -/
def clean_fields : List (String × JVal) → List (String × JVal)
  | [] => []
  | (k, v) :: rest =>
    match clean_none v with
    | none => clean_fields rest
    | some cv =>
      if isEmptyContainer cv then clean_fields rest
      else (k, cv) :: clean_fields rest

/-- The list loop of `_clean_none`. -/
def clean_items : List JVal → List JVal
  | [] => []
  | v :: rest =>
    match clean_none v with
    | none => clean_items rest
    | some cv =>
      if isEmptyContainer cv then clean_items rest
      else cv :: clean_items rest
end

/-- Emission of one record (src/transformers.py:912-925): with pruning on,
a record cleaned to nothing is still emitted as an object with an empty
`record` object, and a cleaned value that lost its `record` wrapper is
re-wrapped. -/
def emit_record (record_data : JVal) (remove_empty_fields : Bool) : JVal :=
  if remove_empty_fields then
    match clean_none record_data with
    | none => .obj [("record", .obj [])]
    | some cleaned =>
      match cleaned with
      | .obj kvs =>
        if kvs.any (fun p => p.1 = "record") then .obj kvs
        else .obj [("record", .obj kvs)]
      | other => .obj [("record", other)]
  else record_data

/-- Python dict assignment `records[iaid] = v`: overwrite in place or append. -/
def pyDictSet {α : Type} (l : List (String × α)) (k : String) (v : α) :
    List (String × α) :=
  if l.any (fun p => p.1 = k) then
    l.map (fun p => if p.1 = k then (k, v) else p)
  else l ++ [(k, v)]

/-- The record loop of `convert_to_json` (lines 124, 912-925): each record's
emitted value is stored in the `records` dict under its `iaid`. -/
def convert_accumulate (inputs : List (String × JVal)) (remove_empty_fields : Bool) :
    List (String × JVal) :=
  inputs.foldl (fun recs p => pyDictSet recs p.1 (emit_record p.2 remove_empty_fields)) []

theorem pyDictSet_keys_mem {α : Type} (l : List (String × α)) (k j : String) (v : α) :
    (j ∈ (pyDictSet l k v).map Prod.fst) ↔ (j = k ∨ j ∈ l.map Prod.fst) := by
  unfold pyDictSet
  split_ifs with h
  · rw [List.any_eq_true] at h
    obtain ⟨p, hp, hpk⟩ := h
    simp only [decide_eq_true_eq] at hpk
    constructor
    · intro hj
      rw [List.mem_map] at hj
      obtain ⟨q, hq, hqj⟩ := hj
      rw [List.mem_map] at hq
      obtain ⟨r, hr, hrq⟩ := hq
      by_cases hrk : r.1 = k
      · rw [if_pos hrk] at hrq
        rw [← hrq] at hqj
        exact Or.inl hqj.symm
      · rw [if_neg hrk] at hrq
        exact Or.inr (List.mem_map.mpr ⟨r, hr, by rw [hrq, hqj]⟩)
    · intro hj
      rcases hj with rfl | hj
      · exact List.mem_map.mpr ⟨(j, v), List.mem_map.mpr ⟨p, hp, by rw [if_pos hpk]⟩, rfl⟩
      · rw [List.mem_map] at hj
        obtain ⟨r, hr, hrj⟩ := hj
        by_cases hrk : r.1 = k
        · exact List.mem_map.mpr ⟨(k, v), List.mem_map.mpr ⟨r, hr, by rw [if_pos hrk]⟩,
            by rw [← hrj, hrk]⟩
        · exact List.mem_map.mpr ⟨r, List.mem_map.mpr ⟨r, hr, by rw [if_neg hrk]⟩, hrj⟩
  · simp only [List.map_append, List.mem_append, List.map_cons, List.map_nil,
      List.mem_singleton]
    tauto

theorem pyDictSet_keys_overwrite {α : Type} (l : List (String × α)) (k : String)
    (v : α) (hmem : l.any (fun p => p.1 = k) = true) :
    (pyDictSet l k v).map Prod.fst = l.map Prod.fst := by
  unfold pyDictSet
  rw [if_pos hmem, List.map_map]
  apply List.map_congr_left
  intro p _
  by_cases h : p.1 = k <;> simp [h]

theorem pyDictSet_keys_nodup {α : Type} (l : List (String × α)) (k : String) (v : α)
    (h : (l.map Prod.fst).Nodup) : ((pyDictSet l k v).map Prod.fst).Nodup := by
  by_cases hmem : l.any (fun p => p.1 = k) = true
  · rw [pyDictSet_keys_overwrite l k v hmem]
    exact h
  · unfold pyDictSet
    rw [if_neg hmem]
    rw [List.map_append]
    have hk : k ∉ l.map Prod.fst := by
      intro hkk
      rw [List.mem_map] at hkk
      obtain ⟨p, hp, hpk⟩ := hkk
      exact hmem (List.any_eq_true.mpr ⟨p, hp, by simp [hpk]⟩)
    simp only [List.map_cons, List.map_nil]
    rw [List.nodup_append]
    exact ⟨h, List.nodup_singleton k, by
      intro a ha hb
      rw [List.mem_singleton] at hb
      rw [hb] at ha
      exact hk ha⟩

theorem convert_accumulate_invariant (remove : Bool) (inputs : List (String × JVal)) :
    ∀ acc : List (String × JVal), (acc.map Prod.fst).Nodup →
      ((inputs.foldl
          (fun recs p => pyDictSet recs p.1 (emit_record p.2 remove)) acc).map
            Prod.fst).Nodup ∧
      (∀ p ∈ inputs, p.1 ∈ (inputs.foldl
          (fun recs p => pyDictSet recs p.1 (emit_record p.2 remove)) acc).map
            Prod.fst) ∧
      (∀ j ∈ acc.map Prod.fst, j ∈ (inputs.foldl
          (fun recs p => pyDictSet recs p.1 (emit_record p.2 remove)) acc).map
            Prod.fst) := by
  induction inputs with
  | nil =>
    intro acc h
    exact ⟨h, by simp, fun j hj => hj⟩
  | cons q rest ih =>
    intro acc h
    rw [List.foldl_cons]
    obtain ⟨nd, hrest, hpres⟩ :=
      ih (pyDictSet acc q.1 (emit_record q.2 remove))
        (pyDictSet_keys_nodup acc q.1 _ h)
    refine ⟨nd, ?_, ?_⟩
    · intro p hp
      rcases List.mem_cons.mp hp with rfl | hp
      · exact hpres p.1
          ((pyDictSet_keys_mem acc p.1 p.1 (emit_record p.2 remove)).mpr (Or.inl rfl))
      · exact hrest p hp
    · intro j hj
      exact hpres j
        ((pyDictSet_keys_mem acc q.1 j (emit_record q.2 remove)).mpr (Or.inr hj))

/-- C2: the mapping that the record loop of `convert_to_json` builds does
carry every input record id exactly once as a key, and a record emptied by
pruning is still emitted as an object with an empty `record` object under
its id.  (The function itself, however, never returns this mapping: its body
has no `return` statement — see the claim record.) -/
theorem c2_record_mapping_shape (inputs : List (String × JVal)) (remove : Bool) :
    ((convert_accumulate inputs remove).map Prod.fst).Nodup ∧
    (∀ p ∈ inputs, p.1 ∈ (convert_accumulate inputs remove).map Prod.fst) ∧
    emit_record (.obj [("record",
        .obj [("iaid", JVal.null), ("title", JVal.null)])]) true =
      .obj [("record", .obj [])] := by
  obtain ⟨h1, h2, _⟩ := convert_accumulate_invariant remove inputs [] (by simp)
  exact ⟨h1, h2, rfl⟩

/-- C2 witness: two records, the second pruned to nothing, both keyed. -/
theorem c2_record_mapping_shape_witness :
    (((convert_accumulate
        [("C1", .obj [("record", .obj [("iaid", JVal.str ['C', '1'])])]),
         ("C2", .obj [("record", .obj [("iaid", JVal.null)])])] true).map
          Prod.fst).Nodup) ∧
    ("C2" ∈ (convert_accumulate
        [("C1", .obj [("record", .obj [("iaid", JVal.str ['C', '1'])])]),
         ("C2", .obj [("record", .obj [("iaid", JVal.null)])])] true).map
          Prod.fst) := by
  obtain ⟨h1, h2, _⟩ := c2_record_mapping_shape
    [("C1", .obj [("record", .obj [("iaid", JVal.str ['C', '1'])])]),
     ("C2", .obj [("record", .obj [("iaid", JVal.null)])])] true
  exact ⟨h1, h2 ("C2", .obj [("record", .obj [("iaid", JVal.null)])]) (by simp)⟩

/-! ### Transfer register (src/utils.py:354-447, run_pipeline.py:144-155) -/

/-- The `QA_status` object written by
`update_transfer_register_with_records`. -/
structure QAStatus where
  checked_complete : Bool
  checked_by : Option (List Char)
  check_complete_date : Option (List Char)
deriving DecidableEq

/-- One entry of the persisted transfer register
(src/utils.py:432-443). -/
structure RegisterEntry where
  reference : List Char
  uploaded_at : List Char
  uploaded_to : List Char
  source_file : List Char
  qa_status : QAStatus
  catalogue_level : Nat
deriving DecidableEq

/-- The persisted register document
`last_updated / total_records / records`. -/
structure Register where
  last_updated : Option (List Char)
  total_records : Nat
  records : List (String × RegisterEntry)
deriving DecidableEq

/-- The fresh register created when none is persisted
(src/utils.py:364 and 367). -/
def empty_register : Register :=
  { last_updated := none, total_records := 0, records := [] }

/-- Outcome of the `s3.get_object` fetch inside `load_transfer_register`:
a parsed register, the `NoSuchKey` error, or any other exception. -/
inductive S3GetResult where
  | success : Register → S3GetResult
  | noSuchKey : S3GetResult
  | otherError : S3GetResult

/-- `load_transfer_register` (src/utils.py:354-367): the `NoSuchKey` handler
returns a fresh register, and the generic `except Exception` handler (lines
365-367) also returns a fresh register, so the function never raises. -/
def load_transfer_register : S3GetResult → Register
  | .success reg => reg
  | .noSuchKey => empty_register
  | .otherError => empty_register

/-- The register-loading step of `lambda_handler` (run_pipeline.py:144-155):
its `except` branch would return an error result, but `load_transfer_register`
never raises, so the step always succeeds. -/
def lambda_load_register (r : S3GetResult) : Except (List Char) Register :=
  Except.ok (load_transfer_register r)

/-- C3: on a fetch error other than `NoSuchKey`,
`load_transfer_register` swallows the exception and hands `lambda_handler` a
fresh empty register; the run proceeds (the `FATAL` branch at
run_pipeline.py:148-155 is unreachable), contrary to the claim that such
errors abort the run. -/
theorem c3_load_error_not_fatal :
    load_transfer_register .noSuchKey = empty_register ∧
    lambda_load_register .otherError = .ok empty_register ∧
    ∀ r : S3GetResult, ∃ reg, lambda_load_register r = .ok reg := by
  refine ⟨rfl, rfl, ?_⟩
  intro r
  exact ⟨load_transfer_register r, rfl⟩

/-- Lookup in a JSON object: `v.get(k)`. -/
def jget (v : JVal) (k : String) : Option JVal :=
  match v with
  | .obj kvs =>
    match kvs.find? (fun p => p.1 == k) with
    | some p => some p.2
    | none => none
  | _ => none

/-- `record_data.get('record', {}).get('catalogueLevel', 0)`
(src/utils.py:418 and 427).  Catalogue levels are the integer codes 1-10 of
the record-type table, hence `Nat` (0 when the key is missing). -/
def rec_catalogue_level (v : JVal) : Nat :=
  match jget v "record" with
  | some r =>
    match jget r "catalogueLevel" with
    | some (.num n) => n.toNat
    | _ => 0
  | none => 0

/-- `record_data.get('record', {}).get('citableReference', 'N/A')`
(src/utils.py:433). -/
def rec_citable_reference (v : JVal) : List Char :=
  match jget v "record" with
  | some r =>
    match jget r "citableReference" with
    | some (.str s) => s
    | _ => "N/A".toList
  | none => "N/A".toList

/-- The maximum-level scan of `update_transfer_register_with_records`
(src/utils.py:416-420). -/
def max_catalogue_level (records : List (String × JVal)) : Nat :=
  records.foldl
    (fun m p => if m < rec_catalogue_level p.2 then rec_catalogue_level p.2 else m) 0

/-- The entry written at src/utils.py:432-443; `now` stands for
`datetime.now().strftime(...)`, passed explicitly. -/
def make_register_entry (record_data : JVal)
    (source_file bucket s3_output_folder now : List Char) : RegisterEntry :=
  { reference := rec_citable_reference record_data
    uploaded_at := now
    uploaded_to := "s3://".toList ++ bucket ++ ['/'] ++ s3_output_folder
    source_file := source_file
    qa_status := { checked_complete := false, checked_by := none,
                   check_complete_date := none }
    catalogue_level := rec_catalogue_level record_data }

/-- `update_transfer_register_with_records` (src/utils.py:411-447): insert an
entry for every record except those at the maximum (leaf) catalogue level. -/
def update_transfer_register_with_records (transfer_register : Register)
    (records : List (String × JVal))
    (source_file bucket s3_output_folder now : List Char) : Register :=
  let max_level := max_catalogue_level records
  { transfer_register with
    records := records.foldl
      (fun acc p =>
        if rec_catalogue_level p.2 = max_level then acc
        else pyDictSet acc p.1
          (make_register_entry p.2 source_file bucket s3_output_folder now))
      transfer_register.records }

/-- `filter_new_records` (src/utils.py:395-409): drop records whose id is
already a key of the register. -/
def filter_new_records (records : List (String × JVal))
    (transfer_register : Register) : List (String × JVal) :=
  records.filter (fun p => !(transfer_register.records.any (fun q => q.1 = p.1)))

theorem le_foldl_max (records : List (String × JVal)) :
    ∀ m : Nat, m ≤ records.foldl
      (fun m p => if m < rec_catalogue_level p.2 then rec_catalogue_level p.2 else m) m := by
  induction records with
  | nil => intro m; exact Nat.le_refl m
  | cons q rest ih =>
    intro m
    rw [List.foldl_cons]
    refine Nat.le_trans ?_ (ih _)
    split_ifs with h
    · exact Nat.le_of_lt h
    · exact Nat.le_refl m

theorem lvl_le_max_catalogue_level (records : List (String × JVal)) :
    ∀ p ∈ records, rec_catalogue_level p.2 ≤ max_catalogue_level records := by
  unfold max_catalogue_level
  suffices h : ∀ m, ∀ p ∈ records, rec_catalogue_level p.2 ≤ records.foldl
      (fun m p => if m < rec_catalogue_level p.2 then rec_catalogue_level p.2 else m) m by
    exact h 0
  induction records with
  | nil => intro m p hp; simp at hp
  | cons q rest ih =>
    intro m p hp
    rw [List.foldl_cons]
    rcases List.mem_cons.mp hp with rfl | hp
    · refine Nat.le_trans ?_ (le_foldl_max rest _)
      split_ifs with h
      · exact Nat.le_refl _
      · exact Nat.le_of_not_lt h
    · exact ih _ p hp

theorem nodup_keys_inj {α : Type} (l : List (String × α))
    (h : (l.map Prod.fst).Nodup) :
    ∀ p ∈ l, ∀ q ∈ l, p.1 = q.1 → p = q := by
  induction l with
  | nil => intro p hp; simp at hp
  | cons a rest ih =>
    rw [List.map_cons, List.nodup_cons] at h
    intro p hp q hq hpq
    rcases List.mem_cons.mp hp with hpa | hp' <;>
      rcases List.mem_cons.mp hq with hqa | hq'
    · rw [hpa, hqa]
    · subst hpa
      exact absurd (List.mem_map.mpr ⟨q, hq', hpq.symm⟩) h.1
    · subst hqa
      exact absurd (List.mem_map.mpr ⟨p, hp', hpq⟩) h.1
    · exact ih h.2 p hp' q hq' hpq

theorem update_register_keys (records : List (String × JVal)) (maxL : Nat)
    (entry : String × JVal → RegisterEntry) :
    ∀ (acc : List (String × RegisterEntry)) (j : String),
      (j ∈ (records.foldl
          (fun acc p => if rec_catalogue_level p.2 = maxL then acc
            else pyDictSet acc p.1 (entry p)) acc).map Prod.fst)
        ↔ (j ∈ acc.map Prod.fst ∨
            ∃ p ∈ records, p.1 = j ∧ rec_catalogue_level p.2 ≠ maxL) := by
  induction records with
  | nil =>
    intro acc j
    simp
  | cons q rest ih =>
    intro acc j
    rw [List.foldl_cons]
    by_cases hq : rec_catalogue_level q.2 = maxL
    · rw [if_pos hq, ih]
      constructor
      · rintro (h | ⟨p, hp, hpj, hpl⟩)
        · exact Or.inl h
        · exact Or.inr ⟨p, List.mem_cons_of_mem q hp, hpj, hpl⟩
      · rintro (h | ⟨p, hp, hpj, hpl⟩)
        · exact Or.inl h
        · rcases List.mem_cons.mp hp with rfl | hp
          · exact absurd hq hpl
          · exact Or.inr ⟨p, hp, hpj, hpl⟩
    · rw [if_neg hq, ih]
      rw [pyDictSet_keys_mem]
      constructor
      · rintro ((rfl | h) | ⟨p, hp, hpj, hpl⟩)
        · exact Or.inr ⟨q, List.mem_cons_self q rest, rfl, hq⟩
        · exact Or.inl h
        · exact Or.inr ⟨p, List.mem_cons_of_mem q hp, hpj, hpl⟩
      · rintro (h | ⟨p, hp, hpj, hpl⟩)
        · exact Or.inl (Or.inr h)
        · rcases List.mem_cons.mp hp with rfl | hp
          · exact Or.inl (Or.inl hpj.symm)
          · exact Or.inr ⟨p, hp, hpj, hpl⟩

theorem any_fst_eq_iff {α : Type} (l : List (String × α)) (k : String) :
    (l.any (fun q => q.1 = k)) = true ↔ k ∈ l.map Prod.fst := by
  rw [List.any_eq_true]
  constructor
  · rintro ⟨q, hq, hqk⟩
    simp only [decide_eq_true_eq] at hqk
    exact List.mem_map.mpr ⟨q, hq, hqk⟩
  · intro h
    obtain ⟨q, hq, hqk⟩ := List.mem_map.mp h
    exact ⟨q, hq, by simp [hqk]⟩

/-- C4: filtering a non-empty batch (with distinct ids) against the register
obtained by updating an empty register with that same batch retains exactly
the records whose catalogue level equals the batch maximum, and every other
record's level is strictly below that maximum. -/
theorem c4_dedup_round_trip (records : List (String × JVal))
    (source_file bucket folder now : List Char)
    (hne : records ≠ [])
    (hnd : (records.map Prod.fst).Nodup) :
    filter_new_records records
        (update_transfer_register_with_records empty_register records
          source_file bucket folder now) =
      records.filter
        (fun p => rec_catalogue_level p.2 = max_catalogue_level records) ∧
    ∀ p ∈ records, rec_catalogue_level p.2 ≠ max_catalogue_level records →
      rec_catalogue_level p.2 < max_catalogue_level records := by
  constructor
  · apply List.filter_congr
    intro p hp
    have hkeys := update_register_keys records (max_catalogue_level records)
      (fun p => make_register_entry p.2 source_file bucket folder now) [] p.1
    simp only [List.map_nil, List.not_mem_nil, false_or] at hkeys
    cases hd : decide (rec_catalogue_level p.2 = max_catalogue_level records) with
    | true =>
      have hlvl := of_decide_eq_true hd
      have hnotmem : ¬((update_transfer_register_with_records empty_register records
          source_file bucket folder now).records.any (fun q => q.1 = p.1)) = true := by
        rw [any_fst_eq_iff]
        intro hmem
        obtain ⟨q, hq, hqj, hql⟩ := hkeys.mp hmem
        have : q = p := nodup_keys_inj records hnd q hq p hp hqj
        rw [this] at hql
        exact hql hlvl
      rw [Bool.not_eq_true] at hnotmem
      rw [hnotmem]
      rfl
    | false =>
      have hlvl : rec_catalogue_level p.2 ≠ max_catalogue_level records := by
        intro hh
        rw [decide_eq_true hh] at hd
        exact absurd hd (by simp)
      have hmem : ((update_transfer_register_with_records empty_register records
          source_file bucket folder now).records.any (fun q => q.1 = p.1)) = true := by
        rw [any_fst_eq_iff]
        exact hkeys.mpr ⟨p, hp, rfl, hlvl⟩
      rw [hmem]
      rfl
  · intro p hp hne'
    exact Nat.lt_of_le_of_ne (lvl_le_max_catalogue_level records p hp) hne'

/-- C4 witness: a two-record batch at levels 6 and 9. -/
theorem c4_dedup_round_trip_witness :
    (filter_new_records
        [("A", .obj [("record", .obj [("catalogueLevel", JVal.num 6)])]),
         ("B", .obj [("record", .obj [("catalogueLevel", JVal.num 9)])])]
        (update_transfer_register_with_records empty_register
          [("A", .obj [("record", .obj [("catalogueLevel", JVal.num 6)])]),
           ("B", .obj [("record", .obj [("catalogueLevel", JVal.num 9)])])]
          [] [] [] []) =
      List.filter
        (fun p => rec_catalogue_level p.2 = max_catalogue_level
          [("A", .obj [("record", .obj [("catalogueLevel", JVal.num 6)])]),
           ("B", .obj [("record", .obj [("catalogueLevel", JVal.num 9)])])])
        [("A", .obj [("record", .obj [("catalogueLevel", JVal.num 6)])]),
         ("B", .obj [("record", .obj [("catalogueLevel", JVal.num 9)])])]) ∧
    ∀ p ∈ ([("A", .obj [("record", .obj [("catalogueLevel", JVal.num 6)])]),
            ("B", .obj [("record", .obj [("catalogueLevel", JVal.num 9)])])] :
        List (String × JVal)),
      rec_catalogue_level p.2 ≠ max_catalogue_level
          [("A", .obj [("record", .obj [("catalogueLevel", JVal.num 6)])]),
           ("B", .obj [("record", .obj [("catalogueLevel", JVal.num 9)])])] →
        rec_catalogue_level p.2 < max_catalogue_level
          [("A", .obj [("record", .obj [("catalogueLevel", JVal.num 6)])]),
           ("B", .obj [("record", .obj [("catalogueLevel", JVal.num 9)])])] :=
  c4_dedup_round_trip _ [] [] [] [] (by simp) (by simp)

/-! ### Level batcher: chunking and tarball naming (run_pipeline.py:492-506) -/

/-- Worker for the chunk comprehension
`[files[i:i + BATCH_SIZE] for i in range(0, total_files, BATCH_SIZE)]`
(run_pipeline.py:500).  `fuel` (called with the length of the list) only
serves structural recursion: each step consumes at least one element when
`B > 0`.  `B = 0` would raise `ValueError` in `range`; it returns `[]`
here and every theorem assumes `0 < B`. -/
def chunk_listF {α : Type} (B : Nat) : Nat → List α → List (List α)
  | 0, _ => []
  | _ + 1, [] => []
  | fuel + 1, x :: xs =>
    if B = 0 then [] else (x :: xs).take B :: chunk_listF B fuel ((x :: xs).drop B)

/-- The chunks of a level group (run_pipeline.py:500). -/
def chunk_list {α : Type} (B : Nat) (files : List α) : List (List α) :=
  chunk_listF B files.length files

/-- The naming loop (run_pipeline.py:501-506): `cumulative_count` starts at 0
and is incremented by `len(chunk)` before naming each tarball. -/
def cumulative_counts {α : Type} : Nat → List (List α) → List Nat
  | _, [] => []
  | acc, c :: cs => (acc + c.length) :: cumulative_counts (acc + c.length) cs

/-- The cumulative counts embedded in the chunk tarball names of one level
group. -/
def tarball_counts {α : Type} (chunks : List (List α)) : List Nat :=
  cumulative_counts 0 chunks

/-- `f"{tree_name}_{level_name}_{cumulative_count}.tar.gz"`
(run_pipeline.py:506). -/
def tarball_name (tree level : List Char) (count : Nat) : List Char :=
  tree ++ '_' :: level ++ '_' :: (Nat.repr count).toList ++ ".tar.gz".toList

/-- The tarball names of one level group, in chunk order. -/
def tarball_names (tree level : List Char) {α : Type} (chunks : List (List α)) :
    List (List Char) :=
  (tarball_counts chunks).map (tarball_name tree level)

theorem cumulative_counts_getD (B : Nat) (hB : 0 < B) :
    ∀ (fuel : Nat) {α : Type} (l : List α) (acc k : Nat),
      l.length ≤ fuel → k < (chunk_listF B fuel l).length →
      (cumulative_counts acc (chunk_listF B fuel l)).getD k 0 =
        acc + min ((k + 1) * B) l.length := by
  intro fuel
  induction fuel with
  | zero =>
    intro α l acc k hfuel hk
    simp [chunk_listF] at hk
  | succ fuel ih =>
    intro α l acc k hfuel hk
    match l with
    | [] => simp [chunk_listF] at hk
    | x :: xs =>
      have hB' : ¬(B = 0) := Nat.pos_iff_ne_zero.mp hB
      rw [chunk_listF, if_neg hB'] at hk
      rw [chunk_listF, if_neg hB']
      match k with
      | 0 =>
        rw [cumulative_counts]
        show acc + ((x :: xs).take B).length = acc + min (1 * B) (x :: xs).length
        rw [List.length_take, Nat.one_mul]
      | k + 1 =>
        rw [cumulative_counts]
        show (cumulative_counts (acc + ((x :: xs).take B).length)
            (chunk_listF B fuel ((x :: xs).drop B))).getD k 0 =
          acc + min ((k + 2) * B) (x :: xs).length
        have hk' : k < (chunk_listF B fuel ((x :: xs).drop B)).length := by
          simp only [List.length_cons] at hk
          omega
        have hfuel' : ((x :: xs).drop B).length ≤ fuel := by
          rw [List.length_drop]
          simp only [List.length_cons] at hfuel ⊢
          omega
        rw [ih ((x :: xs).drop B) _ k hfuel' hk']
        have hne : (x :: xs).drop B ≠ [] := by
          intro hh
          rw [hh] at hk'
          have hzero : (chunk_listF B fuel ([] : List α)).length = 0 := by
            cases fuel <;> rfl
          rw [hzero] at hk'
          omega
        have hBlt : B < (x :: xs).length := by
          have := List.length_drop B (x :: xs)
          have hpos : 0 < ((x :: xs).drop B).length := List.length_pos.mpr hne
          omega
        rw [List.length_take, List.length_drop]
        have hmin : min B (x :: xs).length = B := Nat.min_eq_left (Nat.le_of_lt hBlt)
        rw [hmin]
        have hexp : (k + 2) * B = B + (k + 1) * B := by ring
        rw [hexp]
        have h1 : min ((k + 1) * B) ((x :: xs).length - B) + B =
            min ((k + 1) * B + B) ((x :: xs).length) := by
          have hexp2 : (x :: xs).length = ((x :: xs).length - B) + B := by omega
          rw [hexp2]
          omega
        omega

theorem cumulative_counts_length {α : Type} (cs : List (List α)) :
    ∀ acc, (cumulative_counts acc cs).length = cs.length := by
  induction cs with
  | nil => intro acc; rfl
  | cons c cs ih =>
    intro acc
    rw [cumulative_counts, List.length_cons, List.length_cons, ih]

theorem getD_map_name (tree level : List Char) (l : List Nat) :
    ∀ k, k < l.length →
      ((l.map (tarball_name tree level)).getD k []) =
        tarball_name tree level (l.getD k 0) := by
  induction l with
  | nil => intro k hk; simp at hk
  | cons a l ih =>
    intro k hk
    match k with
    | 0 => rfl
    | k + 1 =>
      rw [List.map_cons]
      show ((l.map (tarball_name tree level)).getD k []) =
        tarball_name tree level (l.getD k 0)
      exact ih k (by simp only [List.length_cons] at hk; omega)

/-- C9: for a level group batched with chunk size `B`, the cumulative record
count embedded in the name of the k-th chunk tarball (1-indexed) equals
`min (k * B) N` where `N` is the group size — the running total through that
chunk, not the chunk's own size. -/
theorem c9_chunk_name_counts {α : Type} (files : List α) (tree level : List Char)
    (B k : Nat) (hB : 0 < B) (hk1 : 1 ≤ k) (hk2 : k ≤ (chunk_list B files).length) :
    (tarball_counts (chunk_list B files)).getD (k - 1) 0 =
      min (k * B) files.length ∧
    (tarball_names tree level (chunk_list B files)).getD (k - 1) [] =
      tarball_name tree level (min (k * B) files.length) := by
  have hlt : k - 1 < (chunk_list B files).length := by omega
  have h := cumulative_counts_getD B hB files.length files 0 (k - 1)
    (Nat.le_refl _) hlt
  have hkk : k - 1 + 1 = k := by omega
  rw [hkk, Nat.zero_add] at h
  refine ⟨h, ?_⟩
  unfold tarball_names
  rw [getD_map_name tree level _ (k - 1) ?hlen]
  case hlen =>
    unfold tarball_counts
    rw [cumulative_counts_length]
    exact hlt
  unfold tarball_counts chunk_list
  rw [h]

/-- C9 witness: 5 records, chunk size 2, third chunk carries count 5. -/
theorem c9_chunk_name_counts_witness :
    (tarball_counts (chunk_list 2 [0, 1, 2, 3, 4])).getD (3 - 1) 0 =
      min (3 * 2) ([0, 1, 2, 3, 4] : List Nat).length ∧
    (tarball_names ['t'] ['l'] (chunk_list 2 [0, 1, 2, 3, 4])).getD (3 - 1) [] =
      tarball_name ['t'] ['l'] (min (3 * 2) ([0, 1, 2, 3, 4] : List Nat).length) :=
  c9_chunk_name_counts [0, 1, 2, 3, 4] ['t'] ['l'] 2 3 (by decide) (by decide)
    (by decide)

/-! ### Transformer frame property (C10): heap model of Python objects

`NewlineToPTransformer.transform/transform_json` and
`YNamingTransformer.transform_json` mutate nested dicts and lists in place,
but only after `copy.deepcopy(data)`.  To state that the caller's input
object is never mutated, Python objects are modelled as a heap of nodes
(dicts and lists) addressed by `Nat` references; immutable scalars (strings,
numbers, booleans, `None`) live inline in the entries, matching the fact
that Python never mutates them in place. -/

/-- An immutable Python scalar. -/
inductive HLeaf where
  | null : HLeaf
  | hbool : Bool → HLeaf
  | hnum : Int → HLeaf
  | hstr : List Char → HLeaf
deriving DecidableEq

/-- A slot of a container: a scalar or a reference to another node. -/
inductive HEntry where
  | leaf : HLeaf → HEntry
  | ref : Nat → HEntry
deriving DecidableEq

/-- A mutable Python container. -/
inductive HNode where
  | dict : List (String × HEntry) → HNode
  | arr : List HEntry → HNode

/-- A heap: node `r` is `h[r]`. -/
abbrev Heap := List HNode

def refsOfEntry : HEntry → List Nat
  | .leaf _ => []
  | .ref r => [r]

def refsOfNode : HNode → List Nat
  | .dict kvs => kvs.flatMap (fun p => refsOfEntry p.2)
  | .arr its => its.flatMap refsOfEntry

/-- Acyclicity in allocation order: every node only references
lower-numbered nodes (true of any object graph built bottom-up, as JSON
parsing and the record mapper do). -/
def HeapWF (h : Heap) : Prop :=
  ∀ i, (hi : i < h.length) → ∀ cr ∈ refsOfNode h[i], cr < i

/-- The segment of nodes at addresses `≥ n` is self-contained: such nodes
only reference nodes in `[n, i)`. -/
def SegOK (h : Heap) (n : Nat) : Prop :=
  ∀ i, (hi : i < h.length) → n ≤ i → ∀ cr ∈ refsOfNode h[i], n ≤ cr ∧ cr < i

def leafVal : HLeaf → JVal
  | .null => .null
  | .hbool b => .bool b
  | .hnum n => .num n
  | .hstr s => .str s

/-- The structural value of the object at `r` (dangling or upward references
read as `null`; they never occur under `HeapWF`). -/
def valueAt (h : Heap) : Nat → JVal
  | r =>
    match h[r]? with
    | none => .null
    | some (.dict kvs) =>
      .obj (kvs.map (fun p => (p.1,
        match p.2 with
        | .leaf l => leafVal l
        | .ref cr => if _hc : cr < r then valueAt h cr else .null)))
    | some (.arr its) =>
      .arr (its.map (fun e =>
        match e with
        | .leaf l => leafVal l
        | .ref cr => if _hc : cr < r then valueAt h cr else .null))
termination_by r => r

/-- `valueAt h d` only reads heap cells at addresses `≤ d`. -/
theorem valueAt_prefix (d : Nat) : ∀ (h₁ h₂ : Heap),
    (∀ i, i ≤ d → h₁[i]? = h₂[i]?) → valueAt h₁ d = valueAt h₂ d := by
  induction d using Nat.strong_induction_on with
  | _ d ih =>
    intro h₁ h₂ hag
    rw [valueAt, valueAt]
    rw [hag d (Nat.le_refl d)]
    cases h₂[d]? with
    | none => rfl
    | some nd =>
      cases nd with
      | dict kvs =>
        simp only []
        congr 1
        apply List.map_congr_left
        intro p _
        congr 1
        cases p.2 with
        | leaf l => rfl
        | ref cr =>
          simp only []
          split_ifs with hc
          · exact ih cr hc h₁ h₂ (fun i hi => hag i (Nat.le_of_lt (Nat.lt_of_le_of_lt hi hc)))
          · rfl
      | arr its =>
        simp only []
        congr 1
        apply List.map_congr_left
        intro e _
        cases e with
        | leaf l => rfl
        | ref cr =>
          simp only []
          split_ifs with hc
          · exact ih cr hc h₁ h₂ (fun i hi => hag i (Nat.le_of_lt (Nat.lt_of_le_of_lt hi hc)))
          · rfl

mutual
/-- `copy.deepcopy` on the heap: copy the object graph below `r` into fresh
nodes at the top of the heap and return the new root.  A dangling reference
(never produced by `HeapWF` heaps) is returned unchanged; the `cr < r` guards
are the acyclicity of `HeapWF` made structural. -/
def deepcopyR (h : Heap) (r : Nat) : Heap × Nat :=
  match h[r]? with
  | none => (h, r)
  | some (.dict kvs) =>
    let p := copyFields h r kvs
    (p.1 ++ [.dict p.2], p.1.length)
  | some (.arr its) =>
    let p := copyItems h r its
    (p.1 ++ [.arr p.2], p.1.length)
termination_by (r, 2, 0)

def copyFields (h : Heap) (r : Nat) : List (String × HEntry) →
    Heap × List (String × HEntry)
  | [] => (h, [])
  | (k, e) :: rest =>
    let p₁ := copyEntry h r e
    let p₂ := copyFields p₁.1 r rest
    (p₂.1, (k, p₁.2) :: p₂.2)
termination_by kvs => (r, 1, kvs.length)

def copyItems (h : Heap) (r : Nat) : List HEntry → Heap × List HEntry
  | [] => (h, [])
  | e :: rest =>
    let p₁ := copyEntry h r e
    let p₂ := copyItems p₁.1 r rest
    (p₂.1, p₁.2 :: p₂.2)
termination_by its => (r, 1, its.length)

def copyEntry (h : Heap) (r : Nat) (e : HEntry) : Heap × HEntry :=
  match e with
  | .leaf l => (h, .leaf l)
  | .ref cr =>
    if _hc : cr < r then
      let p := deepcopyR h cr
      (p.1, .ref p.2)
    else (h, .ref cr)
termination_by (r, 0, 0)
end

/-- The heap-shape contract of a copying step: well-formedness is kept, the
heap only grows, existing cells are untouched, and the new segment is
self-contained. -/
def CopyHeapOK (h h' : Heap) : Prop :=
  HeapWF h' ∧ h.length ≤ h'.length ∧ (∀ i, i < h.length → h'[i]? = h[i]?) ∧
    SegOK h' h.length

theorem getElem_eq_of_getElem? {h₁ h₂ : Heap} {i : Nat}
    (hi₁ : i < h₁.length) (hi₂ : i < h₂.length) (hag : h₁[i]? = h₂[i]?) :
    h₁[i] = h₂[i] := by
  rw [List.getElem?_eq_getElem hi₁, List.getElem?_eq_getElem hi₂] at hag
  exact Option.some.inj hag

theorem CopyHeapOK_refl (h : Heap) (hwf : HeapWF h) : CopyHeapOK h h :=
  ⟨hwf, Nat.le_refl _, fun _ _ => rfl, fun i _ hle cr hcr => by
    have := hwf i (by omega) cr hcr
    omega⟩

theorem CopyHeapOK_trans {h h₁ h₂ : Heap}
    (ha : CopyHeapOK h h₁) (hb : CopyHeapOK h₁ h₂) : CopyHeapOK h h₂ := by
  obtain ⟨hwf₁, hlen₁, hpre₁, hseg₁⟩ := ha
  obtain ⟨hwf₂, hlen₂, hpre₂, hseg₂⟩ := hb
  refine ⟨hwf₂, Nat.le_trans hlen₁ hlen₂, ?_, ?_⟩
  · intro i hi
    rw [hpre₂ i (by omega), hpre₁ i hi]
  · intro i hi hle cr hcr
    by_cases hcase : i < h₁.length
    · have hag : h₂[i]? = h₁[i]? := hpre₂ i hcase
      have heq : h₂[i] = h₁[i] := getElem_eq_of_getElem? hi hcase hag
      rw [heq] at hcr
      exact hseg₁ i hcase hle cr hcr
    · have := hseg₂ i hi (by omega) cr hcr
      omega

theorem append_node_ok (h h₂ : Heap) (nd : HNode)
    (hok : CopyHeapOK h h₂)
    (hrefs : ∀ cr ∈ refsOfNode nd, h.length ≤ cr ∧ cr < h₂.length) :
    CopyHeapOK h (h₂ ++ [nd]) := by
  obtain ⟨hwf₂, hlen₂, hpre₂, hseg₂⟩ := hok
  have hat : (h₂ ++ [nd])[h₂.length]? = some nd := by
    rw [List.getElem?_append_right (Nat.le_refl _)]
    simp
  have hlen : (h₂ ++ [nd]).length = h₂.length + 1 := by
    rw [List.length_append]
    rfl
  refine ⟨?_, ?_, ?_, ?_⟩
  · intro i hi cr hcr
    rw [hlen] at hi
    by_cases hci : i < h₂.length
    · have heq : (h₂ ++ [nd])[i] = h₂[i] :=
        getElem_eq_of_getElem? (by rw [hlen]; omega) hci (List.getElem?_append_left hci)
      rw [heq] at hcr
      exact hwf₂ i hci cr hcr
    · have hieq : i = h₂.length := by omega
      have hi' : i < (h₂ ++ [nd]).length := by rw [hlen]; omega
      have hopt : (h₂ ++ [nd])[i]? = some nd := by rw [hieq]; exact hat
      have heq : (h₂ ++ [nd])[i] = nd := by
        have h2 := List.getElem?_eq_getElem hi'
        rw [hopt] at h2
        exact (Option.some.inj h2).symm
      rw [heq] at hcr
      rw [hieq]
      exact (hrefs cr hcr).2
  · rw [hlen]
    omega
  · intro i hi
    rw [List.getElem?_append_left (by omega : i < h₂.length), hpre₂ i hi]
  · intro i hi hle cr hcr
    rw [hlen] at hi
    by_cases hci : i < h₂.length
    · have heq : (h₂ ++ [nd])[i] = h₂[i] :=
        getElem_eq_of_getElem? (by rw [hlen]; omega) hci (List.getElem?_append_left hci)
      rw [heq] at hcr
      exact hseg₂ i hci hle cr hcr
    · have hieq : i = h₂.length := by omega
      have hi' : i < (h₂ ++ [nd]).length := by rw [hlen]; omega
      have hopt : (h₂ ++ [nd])[i]? = some nd := by rw [hieq]; exact hat
      have heq : (h₂ ++ [nd])[i] = nd := by
        have h2 := List.getElem?_eq_getElem hi'
        rw [hopt] at h2
        exact (Option.some.inj h2).symm
      rw [heq] at hcr
      refine ⟨(hrefs cr hcr).1, ?_⟩
      rw [hieq]
      exact (hrefs cr hcr).2

theorem deepcopyR_spec : ∀ r (h : Heap), HeapWF h →
    CopyHeapOK h (deepcopyR h r).1 ∧
    (r < h.length → h.length ≤ (deepcopyR h r).2 ∧
      (deepcopyR h r).2 < (deepcopyR h r).1.length) := by
  intro r
  induction r using Nat.strong_induction_on with
  | _ r ih =>
    have entry_spec : ∀ (h : Heap) (e : HEntry), HeapWF h →
        (∀ cr ∈ refsOfEntry e, cr < r ∧ cr < h.length) →
        CopyHeapOK h (copyEntry h r e).1 ∧
        (∀ cr' ∈ refsOfEntry (copyEntry h r e).2,
          h.length ≤ cr' ∧ cr' < (copyEntry h r e).1.length) := by
      intro h e hwf he
      match e with
      | .leaf l =>
        rw [copyEntry.eq_def]
        exact ⟨CopyHeapOK_refl h hwf, by intro cr' hcr'; simp [refsOfEntry] at hcr'⟩
      | .ref cr =>
        have hcr := he cr (by simp [refsOfEntry])
        rw [copyEntry.eq_def]
        simp only [dif_pos hcr.1]
        obtain ⟨hok, hroot⟩ := ih cr hcr.1 h hwf
        have hroot' := hroot hcr.2
        refine ⟨hok, ?_⟩
        intro cr' hcr'
        simp only [refsOfEntry, List.mem_singleton] at hcr'
        rw [hcr']
        exact hroot'
    have fields_spec : ∀ (kvs : List (String × HEntry)) (h : Heap), HeapWF h →
        (∀ e ∈ kvs.map Prod.snd, ∀ cr ∈ refsOfEntry e, cr < r ∧ cr < h.length) →
        CopyHeapOK h (copyFields h r kvs).1 ∧
        (∀ e' ∈ (copyFields h r kvs).2.map Prod.snd, ∀ cr' ∈ refsOfEntry e',
          h.length ≤ cr' ∧ cr' < (copyFields h r kvs).1.length) := by
      intro kvs
      induction kvs with
      | nil =>
        intro h hwf _
        rw [copyFields.eq_def]
        exact ⟨CopyHeapOK_refl h hwf, by intro e' he'; simp at he'⟩
      | cons q rest ihf =>
        intro h hwf hkvs
        obtain ⟨k, e⟩ := q
        rw [copyFields.eq_def]
        simp only []
        obtain ⟨hok₁, hrefs₁⟩ := entry_spec h e hwf
          (hkvs e (by simp))
        obtain ⟨hok₂, hrefs₂⟩ := ihf (copyEntry h r e).1 hok₁.1
          (by
            intro e2 he2 cr hcr
            have hh := hkvs e2 (by
              rw [List.map_cons]
              exact List.mem_cons_of_mem _ he2) cr hcr
            exact ⟨hh.1, Nat.lt_of_lt_of_le hh.2 hok₁.2.1⟩)
        refine ⟨CopyHeapOK_trans hok₁ hok₂, ?_⟩
        intro e' he' cr' hcr'
        simp only [List.map_cons, List.mem_cons] at he'
        rcases he' with rfl | he'
        · have hh := hrefs₁ cr' hcr'
          exact ⟨hh.1, Nat.lt_of_lt_of_le hh.2 hok₂.2.1⟩
        · have hh := hrefs₂ e' he' cr' hcr'
          exact ⟨Nat.le_trans hok₁.2.1 hh.1, hh.2⟩
    have items_spec : ∀ (its : List HEntry) (h : Heap), HeapWF h →
        (∀ e ∈ its, ∀ cr ∈ refsOfEntry e, cr < r ∧ cr < h.length) →
        CopyHeapOK h (copyItems h r its).1 ∧
        (∀ e' ∈ (copyItems h r its).2, ∀ cr' ∈ refsOfEntry e',
          h.length ≤ cr' ∧ cr' < (copyItems h r its).1.length) := by
      intro its
      induction its with
      | nil =>
        intro h hwf _
        rw [copyItems.eq_def]
        exact ⟨CopyHeapOK_refl h hwf, by intro e' he'; simp at he'⟩
      | cons e rest ihf =>
        intro h hwf hits
        rw [copyItems.eq_def]
        simp only []
        obtain ⟨hok₁, hrefs₁⟩ := entry_spec h e hwf
          (hits e (List.mem_cons_self e rest))
        obtain ⟨hok₂, hrefs₂⟩ := ihf (copyEntry h r e).1 hok₁.1
          (by
            intro e2 he2 cr hcr
            have hh := hits e2 (List.mem_cons_of_mem e he2) cr hcr
            exact ⟨hh.1, Nat.lt_of_lt_of_le hh.2 hok₁.2.1⟩)
        refine ⟨CopyHeapOK_trans hok₁ hok₂, ?_⟩
        intro e' he' cr' hcr'
        rcases List.mem_cons.mp he' with rfl | he'
        · have hh := hrefs₁ cr' hcr'
          exact ⟨hh.1, Nat.lt_of_lt_of_le hh.2 hok₂.2.1⟩
        · have hh := hrefs₂ e' he' cr' hcr'
          exact ⟨Nat.le_trans hok₁.2.1 hh.1, hh.2⟩
    intro h hwf
    cases hr : h[r]? with
    | none =>
      rw [deepcopyR.eq_def, hr]
      refine ⟨CopyHeapOK_refl h hwf, ?_⟩
      intro hlt
      rw [List.getElem?_eq_getElem hlt] at hr
      exact absurd hr (by simp)
    | some nd =>
      have hrlt : r < h.length := by
        by_contra hge
        rw [List.getElem?_eq_none (by omega)] at hr
        exact absurd hr (by simp)
      have hnd : h[r] = nd := by
        have h2 := List.getElem?_eq_getElem hrlt
        rw [hr] at h2
        exact (Option.some.inj h2).symm
      cases nd with
      | dict kvs =>
        rw [deepcopyR.eq_def, hr]
        have hkvs : ∀ e ∈ kvs.map Prod.snd, ∀ cr ∈ refsOfEntry e,
            cr < r ∧ cr < h.length := by
          intro e he cr hcr
          obtain ⟨q, hq, hqe⟩ := List.mem_map.mp he
          have hmem : cr ∈ refsOfNode h[r] := by
            rw [hnd]
            rw [refsOfNode, List.mem_flatMap]
            exact ⟨q, hq, by rw [hqe]; exact hcr⟩
          have := hwf r hrlt cr hmem
          exact ⟨this, by omega⟩
        obtain ⟨hok, hrefs⟩ := fields_spec kvs h hwf hkvs
        constructor
        · show CopyHeapOK h ((copyFields h r kvs).1 ++ [HNode.dict (copyFields h r kvs).2])
          apply append_node_ok h _ _ hok
          intro cr hcr
          rw [refsOfNode, List.mem_flatMap] at hcr
          obtain ⟨q, hq, hcr⟩ := hcr
          exact hrefs q.2 (List.mem_map.mpr ⟨q, hq, rfl⟩) cr hcr
        · intro _
          refine ⟨hok.2.1, ?_⟩
          show (copyFields h r kvs).1.length <
            ((copyFields h r kvs).1 ++ [HNode.dict (copyFields h r kvs).2]).length
          rw [List.length_append]
          simp
      | arr its =>
        rw [deepcopyR.eq_def, hr]
        have hits : ∀ e ∈ its, ∀ cr ∈ refsOfEntry e,
            cr < r ∧ cr < h.length := by
          intro e he cr hcr
          have hmem : cr ∈ refsOfNode h[r] := by
            rw [hnd]
            rw [refsOfNode, List.mem_flatMap]
            exact ⟨e, he, hcr⟩
          have := hwf r hrlt cr hmem
          exact ⟨this, by omega⟩
        obtain ⟨hok, hrefs⟩ := items_spec its h hwf hits
        constructor
        · show CopyHeapOK h ((copyItems h r its).1 ++ [HNode.arr (copyItems h r its).2])
          apply append_node_ok h _ _ hok
          intro cr hcr
          rw [refsOfNode, List.mem_flatMap] at hcr
          obtain ⟨e, he, hcr⟩ := hcr
          exact hrefs e he cr hcr
        · intro _
          refine ⟨hok.2.1, ?_⟩
          show (copyItems h r its).1.length <
            ((copyItems h r its).1 ++ [HNode.arr (copyItems h r its).2]).length
          rw [List.length_append]
          simp

/-- String rewriting applied to a scalar slot (other scalars unchanged). -/
def mapLeafStr (f : List Char → List Char) : HLeaf → HLeaf
  | .hstr s => .hstr (f s)
  | l => l

/-- Replace the value of slot `j` of container `r` with a scalar, keeping a
dict entry's key: the heap effect of `obj[k] = new` / `lst[i] = new`. -/
def setEntryVal (h : Heap) (r j : Nat) (lf : HLeaf) : Heap :=
  match h[r]? with
  | some (.dict kvs) =>
    match kvs[j]? with
    | some q => h.set r (.dict (kvs.set j (q.1, .leaf lf)))
    | none => h
  | some (.arr its) =>
    match its[j]? with
    | some _ => h.set r (.arr (its.set j (.leaf lf)))
    | none => h
  | none => h

theorem set_untouched (h : Heap) (r : Nat) (nd : HNode) (i : Nat) (hne : i ≠ r) :
    (h.set r nd)[i]? = h[i]? :=
  List.getElem?_set_ne (fun hh => hne hh.symm)

theorem set_SegOK (h : Heap) (n r : Nat) (nd : HNode)
    (hseg : SegOK h n) (hr : r < h.length) (hnr : n ≤ r)
    (hrefs : ∀ cr ∈ refsOfNode nd, cr ∈ refsOfNode h[r]) :
    SegOK (h.set r nd) n := by
  intro i hi hle cr hcr
  rw [List.length_set] at hi
  by_cases hir : i = r
  · have heq : (h.set r nd)[i] = nd := by
      have h1 := List.getElem?_eq_getElem (l := h.set r nd)
        (by rw [List.length_set]; omega : i < (h.set r nd).length)
      have h2 : (h.set r nd)[i]? = some nd := by
        rw [hir, List.getElem?_set_self]
        exact hr
      rw [h2] at h1
      exact (Option.some.inj h1).symm
    rw [heq] at hcr
    have := hseg r hr hnr cr (hrefs cr hcr)
    omega
  · have heq : (h.set r nd)[i] = h[i] :=
      getElem_eq_of_getElem? (by rw [List.length_set]; omega) hi
        (set_untouched h r nd i hir)
    rw [heq] at hcr
    exact hseg i hi hle cr hcr

/-! ### Boolean structural equality on `JVal`

`_transform_target_path` (src/transformers.py:1342-1347) decides whether a
container child changed by comparing `json.dumps(val, sort_keys=True)` (dict)
or `str(val)` (list) before and after the in-place walk.  The walk only
rewrites string scalars in place (no key reorder, no insertion), so the
serialisations differ exactly when the structural values differ; we model
the comparison as structural equality of the read-back values. -/

mutual
def jvalBeq : JVal → JVal → Bool
  | .null, .null => true
  | .bool a, .bool b => a = b
  | .num a, .num b => a = b
  | .str a, .str b => a = b
  | .arr a, .arr b => jvalsBeq a b
  | .obj a, .obj b => jfieldsBeq a b
  | _, _ => false

def jvalsBeq : List JVal → List JVal → Bool
  | [], [] => true
  | x :: xs, y :: ys => jvalBeq x y && jvalsBeq xs ys
  | _, _ => false

def jfieldsBeq : List (String × JVal) → List (String × JVal) → Bool
  | [], [] => true
  | (k, v) :: xs, (l, w) :: ys => (k = l : Bool) && jvalBeq v w && jfieldsBeq xs ys
  | _, _ => false
end

/-- `d.get(k)` / `d[k]` / `k in d` on a Python dict in insertion order. -/
def pyDictGet (kvs : List (String × HEntry)) (k : String) : Option HEntry :=
  (kvs.find? (fun p => p.1 = k)).map (fun p => p.2)

/-- The entry stored in slot `j` of container `r` (value slot `j` of a dict
in insertion order, or element `j` of a list). -/
def slotAt (h : Heap) (r j : Nat) : Option HEntry :=
  match h[r]? with
  | some (.dict kvs) => (kvs[j]?).map (fun p => p.2)
  | some (.arr its) => its[j]?
  | none => none

theorem getElem?_some_bound {α : Type} {l : List α} {i : Nat} {a : α}
    (hr : l[i]? = some a) : ∃ (hl : i < l.length), l[i] = a := by
  have hl : i < l.length := by
    by_contra hge
    rw [List.getElem?_eq_none (by omega)] at hr
    exact absurd hr (by simp)
  refine ⟨hl, ?_⟩
  have h2 := List.getElem?_eq_getElem hl
  rw [hr] at h2
  exact (Option.some.inj h2).symm

/-- A found dict value only carries references already present in the node. -/
theorem pyDictGet_refs (kvs : List (String × HEntry)) (k : String) (e : HEntry)
    (hg : pyDictGet kvs k = some e) :
    ∀ cr ∈ refsOfEntry e, cr ∈ refsOfNode (.dict kvs) := by
  intro cr hcr
  rw [pyDictGet] at hg
  obtain ⟨p, hp, hpe⟩ := Option.map_eq_some'.mp hg
  rw [refsOfNode, List.mem_flatMap]
  exact ⟨p, List.mem_of_find?_eq_some hp, by rw [hpe]; exact hcr⟩

/-- A slot entry only carries references already present in the node. -/
theorem slotAt_refs (h : Heap) (r j : Nat) (e : HEntry)
    (hs : slotAt h r j = some e) :
    ∃ (hl : r < h.length), ∀ cr ∈ refsOfEntry e, cr ∈ refsOfNode h[r] := by
  rw [slotAt] at hs
  cases hr : h[r]? with
  | none => rw [hr] at hs; exact absurd hs (by simp)
  | some nd =>
    obtain ⟨hl, hnd⟩ := getElem?_some_bound hr
    rw [hr] at hs
    refine ⟨hl, ?_⟩
    intro cr hcr
    rw [hnd]
    cases nd with
    | dict kvs =>
      simp only [] at hs
      obtain ⟨p, hp, hpe⟩ := Option.map_eq_some'.mp hs
      rw [refsOfNode, List.mem_flatMap]
      exact ⟨p, List.getElem?_mem hp, by rw [hpe]; exact hcr⟩
    | arr its =>
      simp only [] at hs
      rw [refsOfNode, List.mem_flatMap]
      exact ⟨e, List.getElem?_mem hs, hcr⟩

/-- Setting a slot to a scalar introduces no reference (dict version). -/
theorem refs_set_leaf_dict (kvs : List (String × HEntry)) (j : Nat) (k : String)
    (lf : HLeaf) (cr : Nat)
    (hcr : cr ∈ refsOfNode (.dict (kvs.set j (k, .leaf lf)))) :
    cr ∈ refsOfNode (.dict kvs) := by
  rw [refsOfNode, List.mem_flatMap] at hcr ⊢
  obtain ⟨q, hq, hcrq⟩ := hcr
  rcases List.mem_or_eq_of_mem_set hq with hq' | hq'
  · exact ⟨q, hq', hcrq⟩
  · rw [hq'] at hcrq
    simp [refsOfEntry] at hcrq

/-- Setting a slot to a scalar introduces no reference (list version). -/
theorem refs_set_leaf_arr (its : List HEntry) (j : Nat) (lf : HLeaf) (cr : Nat)
    (hcr : cr ∈ refsOfNode (.arr (its.set j (.leaf lf)))) :
    cr ∈ refsOfNode (.arr its) := by
  rw [refsOfNode, List.mem_flatMap] at hcr ⊢
  obtain ⟨e, he, hcre⟩ := hcr
  rcases List.mem_or_eq_of_mem_set he with he' | he'
  · exact ⟨e, he', hcre⟩
  · rw [he'] at hcre
    simp [refsOfEntry] at hcre

/-- `d[k] = scalar` (insert or overwrite) introduces no reference. -/
theorem refs_pyDictSet_leaf (kvs : List (String × HEntry)) (k : String)
    (lf : HLeaf) (cr : Nat)
    (hcr : cr ∈ refsOfNode (.dict (pyDictSet kvs k (.leaf lf)))) :
    cr ∈ refsOfNode (.dict kvs) := by
  rw [refsOfNode, List.mem_flatMap] at hcr ⊢
  obtain ⟨q, hq, hcrq⟩ := hcr
  rw [pyDictSet] at hq
  by_cases hany : (kvs.any (fun p => p.1 = k)) = true
  · rw [if_pos hany] at hq
    obtain ⟨p, hp, hpq⟩ := List.mem_map.mp hq
    by_cases hpk : p.1 = k
    · rw [if_pos hpk] at hpq
      rw [← hpq] at hcrq
      simp [refsOfEntry] at hcrq
    · rw [if_neg hpk] at hpq
      rw [← hpq] at hcrq
      exact ⟨p, hp, hcrq⟩
  · rw [if_neg hany] at hq
    rcases List.mem_append.mp hq with hq' | hq'
    · exact ⟨q, hq', hcrq⟩
    · rw [List.mem_singleton] at hq'
      rw [hq'] at hcrq
      simp [refsOfEntry] at hcrq

/-- Frame contract of one in-place mutation step on the segment `[n, _)`:
the length is unchanged, cells below `n` are untouched, and the segment
stays self-contained. -/
def MFrame (n : Nat) (h h' : Heap) : Prop :=
  h'.length = h.length ∧ (∀ i, i < n → h'[i]? = h[i]?) ∧ SegOK h' n

theorem MFrame_refl (n : Nat) (h : Heap) (hseg : SegOK h n) : MFrame n h h :=
  ⟨rfl, fun _ _ => rfl, hseg⟩

theorem MFrame_trans {n : Nat} {h h₁ h₂ : Heap}
    (ha : MFrame n h h₁) (hb : MFrame n h₁ h₂) : MFrame n h h₂ :=
  ⟨hb.1.trans ha.1, fun i hi => (hb.2.1 i hi).trans (ha.2.1 i hi), hb.2.2⟩

/-- Overwriting a node inside the segment with a node carrying no new
references is a framed mutation. -/
theorem set_frame (h : Heap) (n r : Nat) (nd : HNode)
    (hseg : SegOK h n) (hr : r < h.length) (hnr : n ≤ r)
    (hrefs : ∀ cr ∈ refsOfNode nd, cr ∈ refsOfNode h[r]) :
    MFrame n h (h.set r nd) :=
  ⟨List.length_set h r nd,
   fun i hi => set_untouched h r nd i (by omega),
   set_SegOK h n r nd hseg hr hnr hrefs⟩

/-- Overwriting a slot of a segment node with a scalar is a framed mutation. -/
theorem setEntryVal_frame (h : Heap) (n r j : Nat) (lf : HLeaf)
    (hseg : SegOK h n) (hnr : n ≤ r) :
    MFrame n h (setEntryVal h r j lf) := by
  rw [setEntryVal]
  split
  · split
    · rename_i x kvs hr xj q hj
      obtain ⟨hrl, hnd⟩ := getElem?_some_bound hr
      apply set_frame h n r _ hseg hrl hnr
      intro cr hcr
      rw [hnd]
      exact refs_set_leaf_dict kvs j q.1 lf cr hcr
    · exact MFrame_refl n h hseg
  · split
    · rename_i x its hr xj e hj
      obtain ⟨hrl, hnd⟩ := getElem?_some_bound hr
      apply set_frame h n r _ hseg hrl hnr
      intro cr hcr
      rw [hnd]
      exact refs_set_leaf_arr its j lf cr hcr
    · exact MFrame_refl n h hseg
  · exact MFrame_refl n h hseg

/-! ### The newline policy string function -/

/-- First pass of `_transform_string` (src/transformers.py:952):
`s.replace('\r\n', '\n')`, a left-to-right non-overlapping scan. -/
def replace_crlf : List Char → List Char
  | [] => []
  | '\r' :: '\n' :: rest => '\n' :: replace_crlf rest
  | c :: rest => c :: replace_crlf rest

/-- Second pass of line 952: `.replace('\r', '\n')`. -/
def map_cr_lf (s : List Char) : List Char :=
  s.map (fun c => if c = '\r' then '\n' else c)

/-- `re.compile('\n').sub('<p>', text)` (lines 938, 955): every newline
becomes `<p>`. -/
def nl_to_p : List Char → List Char
  | [] => []
  | c :: rest => (if c = '\n' then ['<', 'p', '>'] else [c]) ++ nl_to_p rest

/-- `NewlineToPTransformer._transform_string` (lines 946-958) on a string:
normalise CR/LF, then substitute; the `except` fallback cannot fire. -/
def nl_transform_string (s : List Char) : List Char :=
  nl_to_p (map_cr_lf (replace_crlf s))

/-- `list(self.regex.finditer(original))` is non-empty (lines 1161-1163,
1186-1188): the pattern `\n` matches somewhere iff a newline is present. -/
def hasNL (s : List Char) : Bool :=
  s.contains '\n'

/-! ### The in-place string walkers

`NewlineToPTransformer._walk_and_transform_and_log` (lines 1041-1087) and
`YNamingTransformer._recurse_and_transform` (lines 1477-1498) both rewrite
every string scalar reachable from a container with a string function `f`,
in place, processing the slots of each container left to right and
recursing into child containers.  (The newline walker re-assigns every
slot, but assigning a child container the object just walked, or a
non-string scalar its own value, leaves the heap unchanged; the Y-naming
walker writes a string slot only when the rewrite changed it, which is
also heap-equal to the unconditional write.)  The `cr < r` guards are
allocation-order acyclicity made structural, as in `deepcopyR`. -/

mutual
def walk_strings (f : List Char → List Char) (h : Heap) (r : Nat) : Heap :=
  match h[r]? with
  | none => h
  | some (.dict kvs) => walkSlots f h r kvs.length
  | some (.arr its) => walkSlots f h r its.length
termination_by (r, 2, 0)

/-- Process the first `todo` slots of node `r`, in order. -/
def walkSlots (f : List Char → List Char) (h : Heap) (r : Nat) : Nat → Heap
  | 0 => h
  | todo + 1 => walkSlot f (walkSlots f h r todo) r todo
termination_by todo => (r, 1, todo)

/-- Process slot `j` of node `r`: a string scalar is rewritten with `f`,
another scalar is kept, a child container is walked recursively. -/
def walkSlot (f : List Char → List Char) (h : Heap) (r : Nat) (j : Nat) : Heap :=
  match slotAt h r j with
  | some (.leaf lf) => setEntryVal h r j (mapLeafStr f lf)
  | some (.ref cr) => if _hc : cr < r then walk_strings f h cr else h
  | none => h
termination_by (r, 0, 0)
end

/-- The walkers are framed mutations: started at a node of the
self-contained segment `[n, _)`, they leave every cell below `n` untouched
and keep the segment self-contained. -/
theorem walk_frame (f : List Char → List Char) : ∀ (r n : Nat) (h : Heap),
    SegOK h n → n ≤ r → MFrame n h (walk_strings f h r) := by
  intro r
  induction r using Nat.strong_induction_on with
  | _ r ih =>
    have slot_frame : ∀ (h : Heap) (j : Nat) (n : Nat), SegOK h n → n ≤ r →
        MFrame n h (walkSlot f h r j) := by
      intro h j n hseg hnr
      rw [walkSlot.eq_def]
      split
      · rename_i x lf hs
        exact setEntryVal_frame h n r j (mapLeafStr f lf) hseg hnr
      · rename_i x cr hs
        obtain ⟨hrl, hrefs⟩ := slotAt_refs h r j _ hs
        have hcr : cr ∈ refsOfNode h[r] := hrefs cr (by simp [refsOfEntry])
        have hge := hseg r hrl hnr cr hcr
        split
        · exact ih cr hge.2 n h hseg hge.1
        · exact MFrame_refl n h hseg
      · exact MFrame_refl n h hseg
    have slots_frame : ∀ (todo : Nat) (n : Nat) (h : Heap), SegOK h n → n ≤ r →
        MFrame n h (walkSlots f h r todo) := by
      intro todo
      induction todo with
      | zero =>
        intro n h hseg _
        rw [walkSlots]
        exact MFrame_refl n h hseg
      | succ todo iht =>
        intro n h hseg hnr
        rw [walkSlots]
        have h1 := iht n h hseg hnr
        have h2 := slot_frame (walkSlots f h r todo) todo n h1.2.2 hnr
        exact MFrame_trans h1 h2
    intro n h hseg hnr
    rw [walk_strings.eq_def]
    split
    · exact MFrame_refl n h hseg
    · rename_i kvs hr
      exact slots_frame kvs.length n h hseg hnr
    · rename_i its hr
      exact slots_frame its.length n h hseg hnr

/-! ### Dotted/bracket path helpers of `NewlineToPTransformer` -/

def natOfDigits (ds : List Char) : Nat :=
  ds.foldl (fun a c => a * 10 + (c.toNat - 48)) 0

/-- `_parse_part` (src/transformers.py:974-981): match the part against
`^([^\[]+)(?:\[(\d+)\])?$` (over the pipeline's ASCII field names).  The
key is the non-empty run before the first `[`; an indexed part must end
with `[` digits `]` exactly; otherwise the regex fails and
`(part, None)` is returned. -/
def parse_part (part : List Char) : List Char × Option Nat :=
  let key := part.takeWhile (fun c => c ≠ '[')
  let rest := part.dropWhile (fun c => c ≠ '[')
  if key.isEmpty then (part, none)
  else
    match rest with
    | [] => (key, none)
    | _ :: rest2 =>
      if rest2.getLast? = some ']' && !rest2.dropLast.isEmpty
          && rest2.dropLast.all asciiDigit
      then (key, some (natOfDigits rest2.dropLast))
      else (part, none)

/-- Python `int()` on the bracket slice of `_transform_field` (line 1152):
optional surrounding blanks and sign, then digits; anything else raises
and is caught at line 1153. -/
def pyInt (s : List Char) : Option Int :=
  match pyStrip s with
  | '-' :: ds =>
    if !ds.isEmpty && ds.all asciiDigit then some (-(natOfDigits ds : Int))
    else none
  | '+' :: ds =>
    if !ds.isEmpty && ds.all asciiDigit then some ((natOfDigits ds : Int))
    else none
  | ds =>
    if !ds.isEmpty && ds.all asciiDigit then some ((natOfDigits ds : Int))
    else none

/-- Python list indexing `l[i]` with negative wrap-around: the effective
index, or `none` for an `IndexError`. -/
def pyListIdx {α : Type} (l : List α) (i : Int) : Option Nat :=
  if 0 ≤ i then (if i < (l.length : Int) then some i.toNat else none)
  else (if -i ≤ (l.length : Int) then some (l.length - (-i).toNat) else none)

/-- The `[field, record.-variant]` candidate list built by
`NewlineToPTransformer.transform` (lines 1126-1130) and
`YNamingTransformer.transform_json` (lines 1310-1314). -/
def candidate_variants (field : List Char) : List (List Char) :=
  if field.take 7 = ("record.".toList) then [field, field.drop 7]
  else [field, "record.".toList ++ field]

/-- `NewlineToPTransformer.get_by_path` (lines 983-997) with
`default=None`: walk the parsed parts; a missing key, a `None` value
(`cur is default`), a non-dict step or a bad index yields the default. -/
def get_by_path (h : Heap) : HEntry → List (List Char) → Option HEntry
  | cur, [] => some cur
  | cur, part :: rest =>
    match cur with
    | .ref r =>
      match h[r]? with
      | some (.dict kvs) =>
        match pyDictGet kvs (String.mk (parse_part part).1) with
        | none => none
        | some v =>
          if v = .leaf .null then none
          else
            match (parse_part part).2 with
            | none => get_by_path h v rest
            | some idx =>
              match v with
              | .ref r2 =>
                match h[r2]? with
                | some (.arr its) =>
                  match its[idx]? with
                  | some e => get_by_path h e rest
                  | none => none
                | _ => none
              | .leaf _ => none
      | _ => none
    | .leaf _ => none

/-- `NewlineToPTransformer.set_by_path` (lines 1000-1030): traverse to the
last part and assign — a plain last part writes `cur[key] = value`
(insert or overwrite), a bracketed last part writes `lst[idx] = value`
when the key holds a list and the index is in range; no intermediate
containers are created. -/
def set_by_path (h : Heap) : HEntry → List (List Char) → HLeaf → Heap × Bool
  | _, [], _ => (h, false)
  | cur, part :: rest, v =>
    match cur with
    | .ref r =>
      match h[r]? with
      | some (.dict kvs) =>
        if rest.isEmpty then
          match (parse_part part).2 with
          | none =>
            (h.set r (.dict (pyDictSet kvs (String.mk (parse_part part).1)
              (.leaf v))), true)
          | some idx =>
            match pyDictGet kvs (String.mk (parse_part part).1) with
            | some (.ref r2) =>
              match h[r2]? with
              | some (.arr its) =>
                if idx < its.length then
                  (h.set r2 (.arr (its.set idx (.leaf v))), true)
                else (h, false)
              | _ => (h, false)
            | _ => (h, false)
        else
          match pyDictGet kvs (String.mk (parse_part part).1) with
          | none => (h, false)
          | some v2 =>
            if v2 = .leaf .null then (h, false)
            else
              match (parse_part part).2 with
              | none => set_by_path h v2 rest v
              | some idx =>
                match v2 with
                | .ref r2 =>
                  match h[r2]? with
                  | some (.arr its) =>
                    match its[idx]? with
                    | some e => set_by_path h e rest v
                    | none => (h, false)
                  | _ => (h, false)
                | .leaf _ => (h, false)
      | _ => (h, false)
    | .leaf _ => (h, false)

/-- A child entry of a segment node lives in the segment. -/
theorem seg_child_ge (h : Heap) (n r : Nat) (hseg : SegOK h n) (hnr : n ≤ r)
    {nd : HNode} (hr : h[r]? = some nd) {e : HEntry}
    (hin : ∀ cr ∈ refsOfEntry e, cr ∈ refsOfNode nd) :
    ∀ cr ∈ refsOfEntry e, n ≤ cr := by
  intro cr hcr
  obtain ⟨hrl, hnd⟩ := getElem?_some_bound hr
  exact (hseg r hrl hnr cr (by rw [hnd]; exact hin cr hcr)).1

/-- Overwriting a segment node with a node carrying no new references. -/
theorem set_node_frame (h : Heap) (n r : Nat) {nd : HNode} (nd' : HNode)
    (hseg : SegOK h n) (hnr : n ≤ r) (hr : h[r]? = some nd)
    (hrefs : ∀ cr ∈ refsOfNode nd', cr ∈ refsOfNode nd) :
    MFrame n h (h.set r nd') := by
  obtain ⟨hrl, hnd⟩ := getElem?_some_bound hr
  exact set_frame h n r nd' hseg hrl hnr (by rw [hnd]; exact hrefs)

/-- A list element only carries references already present in the node. -/
theorem arr_elem_refs (its : List HEntry) (idx : Nat) (e : HEntry)
    (hi : its[idx]? = some e) :
    ∀ cr ∈ refsOfEntry e, cr ∈ refsOfNode (.arr its) := by
  intro cr hcr
  rw [refsOfNode, List.mem_flatMap]
  exact ⟨e, List.getElem?_mem hi, hcr⟩

/-- `set_by_path` is a framed mutation when started on a segment entry. -/
theorem set_by_path_frame (v : HLeaf) : ∀ (parts : List (List Char)) (h : Heap)
    (cur : HEntry) (n : Nat), SegOK h n → (∀ cr ∈ refsOfEntry cur, n ≤ cr) →
    MFrame n h (set_by_path h cur parts v).1 := by
  intro parts
  induction parts with
  | nil =>
    intro h cur n hseg _
    exact MFrame_refl n h hseg
  | cons part rest ihp =>
    intro h cur n hseg hcur
    cases cur with
    | leaf l => exact MFrame_refl n h hseg
    | ref r =>
      have hnr : n ≤ r := hcur r (by simp [refsOfEntry])
      rw [set_by_path]
      split
      · rename_i x kvs hr
        split
        · -- last part
          split
          · -- plain key: cur[key] = value
            exact set_node_frame h n r _ hseg hnr hr
              (fun cr hcr => refs_pyDictSet_leaf kvs _ v cr hcr)
          · -- bracketed last part
            rename_i xo idx hidx
            split
            · rename_i xg vg r2 hg
              have hr2 : n ≤ r2 :=
                seg_child_ge h n r hseg hnr hr
                  (pyDictGet_refs kvs _ _ hg) r2 (by simp [refsOfEntry])
              split
              · rename_i xa its ha
                split
                · exact set_node_frame h n r2 _ hseg hr2 ha
                    (fun cr hcr => refs_set_leaf_arr its idx v cr hcr)
                · exact MFrame_refl n h hseg
              · exact MFrame_refl n h hseg
            · exact MFrame_refl n h hseg
        · -- traverse
          split
          · exact MFrame_refl n h hseg
          · rename_i xg v2 hg
            split
            · exact MFrame_refl n h hseg
            · split
              · exact ihp h v2 n hseg
                  (seg_child_ge h n r hseg hnr hr (pyDictGet_refs kvs _ _ hg))
              · rename_i xo2 idx hidx
                split
                · rename_i r2 hne
                  have hr2 : n ≤ r2 :=
                    seg_child_ge h n r hseg hnr hr
                      (pyDictGet_refs kvs _ _ hg) r2 (by simp [refsOfEntry])
                  split
                  · rename_i xa its ha
                    split
                    · rename_i e he
                      exact ihp h e n hseg
                        (seg_child_ge h n r2 hseg hr2 ha (arr_elem_refs its idx e he))
                    · exact MFrame_refl n h hseg
                  · exact MFrame_refl n h hseg
                · exact MFrame_refl n h hseg
      · exact MFrame_refl n h hseg

/-! ### `YNamingTransformer._transform_target_path` -/

/-- `_transform_target_path` (src/transformers.py:1321-1351): walk the
dotted parts through dicts only; at the last part a string value is
rewritten with `apply_if_reference` (written back only when changed), a
dict/list value is walked in place with `_transform_all_strings_json` and
the change flag is the before/after comparison of the child's value. -/
def transform_target_path (h : Heap) : HEntry → List (List Char) → Heap × Bool
  | _, [] => (h, false)
  | cur, part :: rest =>
    match cur with
    | .ref r =>
      match h[r]? with
      | some (.dict kvs) =>
        match pyDictGet kvs (String.mk part) with
        | none => (h, false)
        | some val =>
          if rest.isEmpty then
            match val with
            | .leaf (.hstr s) =>
              if apply_if_reference s ≠ s then
                (h.set r (.dict (pyDictSet kvs (String.mk part)
                  (.leaf (.hstr (apply_if_reference s))))), true)
              else (h, false)
            | .ref r2 =>
              (walk_strings apply_if_reference h r2,
               !jvalBeq (valueAt h r2)
                 (valueAt (walk_strings apply_if_reference h r2) r2))
            | .leaf _ => (h, false)
          else transform_target_path h val rest
      | _ => (h, false)
    | .leaf _ => (h, false)

/-- `_transform_target_path` is a framed mutation on a segment entry. -/
theorem transform_target_path_frame : ∀ (parts : List (List Char)) (h : Heap)
    (cur : HEntry) (n : Nat), SegOK h n → (∀ cr ∈ refsOfEntry cur, n ≤ cr) →
    MFrame n h (transform_target_path h cur parts).1 := by
  intro parts
  induction parts with
  | nil =>
    intro h cur n hseg _
    exact MFrame_refl n h hseg
  | cons part rest ihp =>
    intro h cur n hseg hcur
    cases cur with
    | leaf l => exact MFrame_refl n h hseg
    | ref r =>
      have hnr : n ≤ r := hcur r (by simp [refsOfEntry])
      rw [transform_target_path]
      split
      · rename_i x kvs hr
        split
        · exact MFrame_refl n h hseg
        · rename_i xg val hg
          split
          · -- last part
            split
            · rename_i s
              split
              · exact set_node_frame h n r _ hseg hnr hr
                  (fun cr hcr => refs_pyDictSet_leaf kvs _ _ cr hcr)
              · exact MFrame_refl n h hseg
            · rename_i r2
              have hr2 : n ≤ r2 :=
                seg_child_ge h n r hseg hnr hr
                  (pyDictGet_refs kvs _ _ hg) r2 (by simp [refsOfEntry])
              exact walk_frame apply_if_reference r2 n h hseg hr2
            · exact MFrame_refl n h hseg
          · -- traverse
            exact ihp h val n hseg
              (seg_child_ge h n r hseg hnr hr (pyDictGet_refs kvs _ _ hg))
      · exact MFrame_refl n h hseg

/-! ### `NewlineToPTransformer._transform_field` -/

/-- The value bound to `cur` during `_transform_field`: a heap value, the
fresh `[]` default of `cur.get(name, [])` (line 1156), or Python `None`. -/
inductive Cursor where
  | ent : HEntry → Cursor
  | emptyList : Cursor
  | pynone : Cursor
deriving DecidableEq

/-- `_transform_field`'s outcome: `ok changed`, or `exn` where the Python
code raises an uncaught exception (a bracketed part whose head does not
unpack into exactly `name[idx` at line 1150, or a negative index below
`-len` raising `IndexError`). -/
inductive TFOut where
  | ok : Bool → TFOut
  | exn : TFOut
deriving DecidableEq

/-- `cur.get(name, [])` when `cur` is a dict, else Python `None`: the
bracketed branch of `_transform_field` (line 1156). -/
def bracket_core (h : Heap) : Cursor → List Char → Cursor
  | .ent (.ref r), nm =>
    match h[r]? with
    | some (.dict kvs) =>
      match pyDictGet kvs (String.mk nm) with
      | some e => .ent e
      | none => .emptyList
    | _ => .pynone
  | _, _ => .pynone

/-- `if name: cur = cur.get(name, []) if isinstance(cur, dict) else None`
(lines 1155-1156): skipped entirely for an empty name. -/
def bracket_get (h : Heap) (cur : Cursor) (nm : List Char) : Cursor :=
  if nm.isEmpty then cur else bracket_core h cur nm

/-- `cur = cur.get(part, None) if isinstance(cur, dict) else None`
(line 1204). -/
def plain_get (h : Heap) : Cursor → List Char → Cursor
  | .ent (.ref r), key =>
    match h[r]? with
    | some (.dict kvs) =>
      match pyDictGet kvs (String.mk key) with
      | some e => .ent e
      | none => .pynone
    | _ => .pynone
  | _, _ => .pynone

/-- The final plain-part write (lines 1183-1202): when `cur` is a dict
whose `part` key holds a string containing a newline, substitute and write
it back. -/
def plain_last_write (h : Heap) : Cursor → List Char → Heap × TFOut
  | .ent (.ref r), part =>
    match h[r]? with
    | some (.dict kvs) =>
      match pyDictGet kvs (String.mk part) with
      | some (.leaf (.hstr s)) =>
        if hasNL s then
          (h.set r (.dict (pyDictSet kvs (String.mk part)
            (.leaf (.hstr (nl_to_p s))))), .ok true)
        else (h, .ok false)
      | _ => (h, .ok false)
    | _ => (h, .ok false)
  | _, _ => (h, .ok false)

/-- `NewlineToPTransformer._transform_field` (src/transformers.py:1145-1205)
as a heap transformer.  A bracketed part `name[idx]` reads
`cur.get(name, [])` and indexes the list (negative indices wrap); the final
part rewrites a string that contains a newline with `regex.sub` — note: no
CR/LF normalisation on this path, unlike `_transform_string` — and writes
it back; a plain final part does the same for `cur[part]`. -/
def transform_field (h : Heap) : Cursor → List (List Char) → Heap × TFOut
  | _, [] => (h, .ok false)
  | cur, part :: rest =>
    if part.contains '[' && part.getLast? = some ']' then
      match pySplit '[' part.dropLast with
      | [nm, idxs] =>
        match pyInt idxs with
        | none => (h, .ok false)
        | some idx =>
          match bracket_get h cur nm with
          | .emptyList => if idx < 0 then (h, .exn) else (h, .ok false)
          | .pynone => (h, .ok false)
          | .ent (.leaf _) => (h, .ok false)
          | .ent (.ref r2) =>
            match h[r2]? with
            | some (.arr its) =>
              if idx < (its.length : Int) then
                match pyListIdx its idx with
                | none => (h, .exn)
                | some j =>
                  if rest.isEmpty then
                    match its[j]? with
                    | some (.leaf (.hstr s)) =>
                      if hasNL s then
                        (setEntryVal h r2 j (.hstr (nl_to_p s)), .ok true)
                      else (h, .ok false)
                    | _ => (h, .ok false)
                  else
                    match its[j]? with
                    | some e => transform_field h (.ent e) rest
                    | none => (h, .ok false)
              else (h, .ok false)
            | _ => (h, .ok false)
      | _ => (h, .exn)
    else
      if rest.isEmpty then plain_last_write h cur part
      else transform_field h (plain_get h cur part) rest

/-- The segment discipline on a `_transform_field` cursor. -/
def CursorGE (n : Nat) : Cursor → Prop
  | .ent e => ∀ cr ∈ refsOfEntry e, n ≤ cr
  | .emptyList => True
  | .pynone => True

theorem bracket_core_ge (h : Heap) (cur : Cursor) (nm : List Char) (n : Nat)
    (hseg : SegOK h n) (hc : CursorGE n cur) :
    CursorGE n (bracket_core h cur nm) := by
  cases cur with
  | ent e =>
    cases e with
    | leaf l => trivial
    | ref r =>
      have hnr : n ≤ r := hc r (by simp [refsOfEntry])
      rw [bracket_core]
      split
      · rename_i x kvs hr
        split
        · rename_i xg e2 hg
          exact seg_child_ge h n r hseg hnr hr (pyDictGet_refs kvs _ _ hg)
        · trivial
      · trivial
  | emptyList => trivial
  | pynone => trivial

theorem bracket_get_ge (h : Heap) (cur : Cursor) (nm : List Char) (n : Nat)
    (hseg : SegOK h n) (hc : CursorGE n cur) :
    CursorGE n (bracket_get h cur nm) := by
  rw [bracket_get]
  split
  · exact hc
  · exact bracket_core_ge h cur nm n hseg hc

theorem plain_get_ge (h : Heap) (cur : Cursor) (key : List Char) (n : Nat)
    (hseg : SegOK h n) (hc : CursorGE n cur) :
    CursorGE n (plain_get h cur key) := by
  cases cur with
  | ent e =>
    cases e with
    | leaf l => trivial
    | ref r =>
      have hnr : n ≤ r := hc r (by simp [refsOfEntry])
      rw [plain_get]
      split
      · rename_i x kvs hr
        split
        · rename_i xg e2 hg
          exact seg_child_ge h n r hseg hnr hr (pyDictGet_refs kvs _ _ hg)
        · trivial
      · trivial
  | emptyList => trivial
  | pynone => trivial

/-- The final plain-part write is a framed mutation. -/
theorem plain_last_write_frame (h : Heap) (cur : Cursor) (part : List Char)
    (n : Nat) (hseg : SegOK h n) (hcur : CursorGE n cur) :
    MFrame n h (plain_last_write h cur part).1 := by
  cases cur with
  | ent e =>
    cases e with
    | leaf l => exact MFrame_refl n h hseg
    | ref r =>
      have hnr : n ≤ r := hcur r (by simp [refsOfEntry])
      rw [plain_last_write]
      split
      · rename_i x kvs hr
        split
        · rename_i xg s hg
          split
          · exact set_node_frame h n r _ hseg hnr hr
              (fun cr hcr => refs_pyDictSet_leaf kvs _ _ cr hcr)
          · exact MFrame_refl n h hseg
        · exact MFrame_refl n h hseg
      · exact MFrame_refl n h hseg
  | emptyList => exact MFrame_refl n h hseg
  | pynone => exact MFrame_refl n h hseg

/-- `_transform_field` is a framed mutation on a segment cursor. -/
theorem transform_field_frame : ∀ (parts : List (List Char)) (h : Heap)
    (cur : Cursor) (n : Nat), SegOK h n → CursorGE n cur →
    MFrame n h (transform_field h cur parts).1 := by
  intro parts
  induction parts with
  | nil =>
    intro h cur n hseg _
    exact MFrame_refl n h hseg
  | cons part rest ihp =>
    intro h cur n hseg hcur
    rw [transform_field]
    split
    · -- bracketed part
      split
      · rename_i xs nm idxs hsp
        split
        · exact MFrame_refl n h hseg
        · rename_i xi idx hi
          split
          · split
            · exact MFrame_refl n h hseg
            · exact MFrame_refl n h hseg
          · exact MFrame_refl n h hseg
          · exact MFrame_refl n h hseg
          · rename_i r2 hb
            have hr2 : n ≤ r2 := by
              have := bracket_get_ge h cur nm n hseg hcur
              rw [hb] at this
              exact this r2 (by simp [refsOfEntry])
            split
            · rename_i xa its ha
              split
              · split
                · exact MFrame_refl n h hseg
                · rename_i j hj
                  split
                  · split
                    · rename_i s hs
                      split
                      · exact setEntryVal_frame h n r2 j _ hseg hr2
                      · exact MFrame_refl n h hseg
                    · exact MFrame_refl n h hseg
                  · split
                    · rename_i e he
                      exact ihp h (.ent e) n hseg
                        (seg_child_ge h n r2 hseg hr2 ha (arr_elem_refs its j e he))
                    · exact MFrame_refl n h hseg
              · exact MFrame_refl n h hseg
            · exact MFrame_refl n h hseg
      · exact MFrame_refl n h hseg
    · -- plain part
      split
      · exact plain_last_write_frame h cur part n hseg hcur
      · exact ihp h (plain_get h cur part) n hseg
          (plain_get_ge h cur part n hseg hcur)

/-! ### The transformer entry points -/

/-- One per-field step of `transform_json`'s explicit-columns mode
(src/transformers.py:1091-1099): read the dotted path, rewrite a string
hit with `_transform_string`, write back only when changed. -/
def nl_field_step (h : Heap) (r : Nat) (field : List Char) : Heap :=
  match get_by_path h (.ref r) (pySplit '.' field) with
  | some (.leaf (.hstr s)) =>
    if nl_transform_string s ≠ s then
      (set_by_path h (.ref r) (pySplit '.' field)
        (.hstr (nl_transform_string s))).1
    else h
  | _ => h

def nl_fields_json_loop (h : Heap) (r : Nat) : List (List Char) → Heap
  | [] => h
  | f :: more => nl_fields_json_loop (nl_field_step h r f) r more

/-- `NewlineToPTransformer.transform_json` (lines 1032-1100): deep-copy the
input, then either walk every string value (columns `None`, lines
1039-1088) or process each configured dotted field path (lines 1091-1100);
the copy's root is returned. -/
def nl_transform_json (h : Heap) (r : Nat)
    (cols : Option (List (List Char))) : Heap × Nat :=
  match cols with
  | none =>
    (walk_strings nl_transform_string (deepcopyR h r).1 (deepcopyR h r).2,
     (deepcopyR h r).2)
  | some fields =>
    (nl_fields_json_loop (deepcopyR h r).1 (deepcopyR h r).2 fields,
     (deepcopyR h r).2)

/-- The candidate loop of `NewlineToPTransformer.transform` (lines
1132-1142): the `break` is inside the commented-out logging block, so each
candidate runs; an uncaught exception from `_transform_field` aborts. -/
def nl_candidates_loop (h : Heap) (r : Nat) : List (List Char) → Heap × Bool
  | [] => (h, false)
  | cand :: more =>
    if (transform_field h (.ent (.ref r)) (pySplit '.' cand)).2 = TFOut.exn
    then ((transform_field h (.ent (.ref r)) (pySplit '.' cand)).1, true)
    else nl_candidates_loop
      (transform_field h (.ent (.ref r)) (pySplit '.' cand)).1 r more

def nl_fields_loop (h : Heap) (r : Nat) : List (List Char) → Heap × Bool
  | [] => (h, false)
  | field :: more =>
    if (nl_candidates_loop h r (candidate_variants field)).2
    then nl_candidates_loop h r (candidate_variants field)
    else nl_fields_loop (nl_candidates_loop h r (candidate_variants field)).1
      r more

/-- `NewlineToPTransformer.transform` (lines 1102-1143) on a JSON dict:
deep-copy; with no configured columns (`None` or empty, line 1121)
delegate to `transform_json`, which copies again; otherwise run
`_transform_field` over both candidate variants of every column.  The
root is `none` when a bracket part raises out of the call. -/
def nl_transform (h : Heap) (r : Nat)
    (cols : Option (List (List Char))) : Heap × Option Nat :=
  match cols with
  | none =>
    ((nl_transform_json (deepcopyR h r).1 (deepcopyR h r).2 none).1,
     some (nl_transform_json (deepcopyR h r).1 (deepcopyR h r).2 none).2)
  | some [] =>
    ((nl_transform_json (deepcopyR h r).1 (deepcopyR h r).2 none).1,
     some (nl_transform_json (deepcopyR h r).1 (deepcopyR h r).2 none).2)
  | some (field :: more) =>
    ((nl_fields_loop (deepcopyR h r).1 (deepcopyR h r).2 (field :: more)).1,
     if (nl_fields_loop (deepcopyR h r).1 (deepcopyR h r).2 (field :: more)).2
     then none else some (deepcopyR h r).2)

/-- The candidate loop of `YNamingTransformer.transform_json` (lines
1316-1318): stop after the first candidate that changed something. -/
def y_candidates_loop (h : Heap) (r : Nat) : List (List Char) → Heap
  | [] => h
  | cand :: more =>
    if (transform_target_path h (.ref r) (pySplit '.' cand)).2
    then (transform_target_path h (.ref r) (pySplit '.' cand)).1
    else y_candidates_loop (transform_target_path h (.ref r)
      (pySplit '.' cand)).1 r more

def y_fields_loop (h : Heap) (r : Nat) : List (List Char) → Heap
  | [] => h
  | field :: more =>
    y_fields_loop (y_candidates_loop h r (candidate_variants field)) r more

/-- `YNamingTransformer.transform_json` (lines 1293-1319): deep-copy; with
columns `None` walk every string value with `apply_if_reference`
(`_transform_all_strings_json`); otherwise run `_transform_target_path`
over the candidate variants of every column; the copy's root is
returned. -/
def y_transform_json (h : Heap) (r : Nat)
    (cols : Option (List (List Char))) : Heap × Nat :=
  match cols with
  | none =>
    (walk_strings apply_if_reference (deepcopyR h r).1 (deepcopyR h r).2,
     (deepcopyR h r).2)
  | some fields =>
    (y_fields_loop (deepcopyR h r).1 (deepcopyR h r).2 fields,
     (deepcopyR h r).2)

theorem ref_entry_ge (n r : Nat) (hnr : n ≤ r) :
    ∀ cr ∈ refsOfEntry (.ref r), n ≤ cr := by
  intro cr hcr
  simp [refsOfEntry] at hcr
  omega

theorem nl_field_step_frame (h : Heap) (r n : Nat) (field : List Char)
    (hseg : SegOK h n) (hnr : n ≤ r) : MFrame n h (nl_field_step h r field) := by
  rw [nl_field_step]
  split
  · split
    · exact set_by_path_frame _ (pySplit '.' field) h _ n hseg
        (ref_entry_ge n r hnr)
    · exact MFrame_refl n h hseg
  · exact MFrame_refl n h hseg

theorem nl_fields_json_loop_frame : ∀ (fields : List (List Char)) (h : Heap)
    (r n : Nat), SegOK h n → n ≤ r →
    MFrame n h (nl_fields_json_loop h r fields) := by
  intro fields
  induction fields with
  | nil =>
    intro h r n hseg _
    exact MFrame_refl n h hseg
  | cons f more ihf =>
    intro h r n hseg hnr
    rw [nl_fields_json_loop]
    have h1 := nl_field_step_frame h r n f hseg hnr
    exact MFrame_trans h1 (ihf (nl_field_step h r f) r n h1.2.2 hnr)

theorem nl_candidates_loop_frame : ∀ (cands : List (List Char)) (h : Heap)
    (r n : Nat), SegOK h n → n ≤ r →
    MFrame n h (nl_candidates_loop h r cands).1 := by
  intro cands
  induction cands with
  | nil =>
    intro h r n hseg _
    exact MFrame_refl n h hseg
  | cons cand more ihc =>
    intro h r n hseg hnr
    rw [nl_candidates_loop]
    have h1 := transform_field_frame (pySplit '.' cand) h (.ent (.ref r)) n
      hseg (ref_entry_ge n r hnr)
    split
    · exact h1
    · exact MFrame_trans h1 (ihc _ r n h1.2.2 hnr)

theorem nl_fields_loop_frame : ∀ (fields : List (List Char)) (h : Heap)
    (r n : Nat), SegOK h n → n ≤ r →
    MFrame n h (nl_fields_loop h r fields).1 := by
  intro fields
  induction fields with
  | nil =>
    intro h r n hseg _
    exact MFrame_refl n h hseg
  | cons field more ihf =>
    intro h r n hseg hnr
    rw [nl_fields_loop]
    have h1 := nl_candidates_loop_frame (candidate_variants field) h r n hseg hnr
    split
    · exact h1
    · exact MFrame_trans h1 (ihf _ r n h1.2.2 hnr)

theorem y_candidates_loop_frame : ∀ (cands : List (List Char)) (h : Heap)
    (r n : Nat), SegOK h n → n ≤ r →
    MFrame n h (y_candidates_loop h r cands) := by
  intro cands
  induction cands with
  | nil =>
    intro h r n hseg _
    exact MFrame_refl n h hseg
  | cons cand more ihc =>
    intro h r n hseg hnr
    rw [y_candidates_loop]
    have h1 := transform_target_path_frame (pySplit '.' cand) h (.ref r) n
      hseg (ref_entry_ge n r hnr)
    split
    · exact h1
    · exact MFrame_trans h1 (ihc _ r n h1.2.2 hnr)

theorem y_fields_loop_frame : ∀ (fields : List (List Char)) (h : Heap)
    (r n : Nat), SegOK h n → n ≤ r →
    MFrame n h (y_fields_loop h r fields) := by
  intro fields
  induction fields with
  | nil =>
    intro h r n hseg _
    exact MFrame_refl n h hseg
  | cons field more ihf =>
    intro h r n hseg hnr
    rw [y_fields_loop]
    have h1 := y_candidates_loop_frame (candidate_variants field) h r n hseg hnr
    exact MFrame_trans h1 (ihf _ r n h1.2.2 hnr)

/-- `NewlineToPTransformer.transform_json` leaves every pre-existing heap
cell unchanged: it only writes into the deep copy. -/
theorem nl_transform_json_frame (h : Heap) (r : Nat)
    (cols : Option (List (List Char))) (hwf : HeapWF h) (hr : r < h.length) :
    ∀ i, i < h.length → (nl_transform_json h r cols).1[i]? = h[i]? := by
  obtain ⟨⟨hwf1, hlen1, hpre1, hseg1⟩, hroot⟩ := deepcopyR_spec r h hwf
  have hge := (hroot hr).1
  cases cols with
  | none =>
    intro i hi
    have hm := walk_frame nl_transform_string (deepcopyR h r).2 h.length
      (deepcopyR h r).1 hseg1 hge
    show (walk_strings nl_transform_string (deepcopyR h r).1
      (deepcopyR h r).2)[i]? = h[i]?
    rw [hm.2.1 i hi]
    exact hpre1 i hi
  | some fields =>
    intro i hi
    have hm := nl_fields_json_loop_frame fields (deepcopyR h r).1
      (deepcopyR h r).2 h.length hseg1 hge
    show (nl_fields_json_loop (deepcopyR h r).1 (deepcopyR h r).2
      fields)[i]? = h[i]?
    rw [hm.2.1 i hi]
    exact hpre1 i hi

/-- `NewlineToPTransformer.transform` leaves every pre-existing heap cell
unchanged, also on its exception path. -/
theorem nl_transform_frame (h : Heap) (r : Nat)
    (cols : Option (List (List Char))) (hwf : HeapWF h) (hr : r < h.length) :
    ∀ i, i < h.length → (nl_transform h r cols).1[i]? = h[i]? := by
  obtain ⟨⟨hwf1, hlen1, hpre1, hseg1⟩, hroot⟩ := deepcopyR_spec r h hwf
  have hge := (hroot hr).1
  have hlt := (hroot hr).2
  cases cols with
  | none =>
    intro i hi
    show (nl_transform_json (deepcopyR h r).1 (deepcopyR h r).2 none).1[i]?
      = h[i]?
    rw [nl_transform_json_frame (deepcopyR h r).1 (deepcopyR h r).2 none hwf1
      hlt i (by omega)]
    exact hpre1 i hi
  | some fields =>
    cases fields with
    | nil =>
      intro i hi
      show (nl_transform_json (deepcopyR h r).1 (deepcopyR h r).2 none).1[i]?
        = h[i]?
      rw [nl_transform_json_frame (deepcopyR h r).1 (deepcopyR h r).2 none hwf1
        hlt i (by omega)]
      exact hpre1 i hi
    | cons field more =>
      intro i hi
      have hm := nl_fields_loop_frame (field :: more) (deepcopyR h r).1
        (deepcopyR h r).2 h.length hseg1 hge
      show (nl_fields_loop (deepcopyR h r).1 (deepcopyR h r).2
        (field :: more)).1[i]? = h[i]?
      rw [hm.2.1 i hi]
      exact hpre1 i hi

/-- `YNamingTransformer.transform_json` leaves every pre-existing heap cell
unchanged: it only writes into the deep copy. -/
theorem y_transform_json_frame (h : Heap) (r : Nat)
    (cols : Option (List (List Char))) (hwf : HeapWF h) (hr : r < h.length) :
    ∀ i, i < h.length → (y_transform_json h r cols).1[i]? = h[i]? := by
  obtain ⟨⟨hwf1, hlen1, hpre1, hseg1⟩, hroot⟩ := deepcopyR_spec r h hwf
  have hge := (hroot hr).1
  cases cols with
  | none =>
    intro i hi
    have hm := walk_frame apply_if_reference (deepcopyR h r).2 h.length
      (deepcopyR h r).1 hseg1 hge
    show (walk_strings apply_if_reference (deepcopyR h r).1
      (deepcopyR h r).2)[i]? = h[i]?
    rw [hm.2.1 i hi]
    exact hpre1 i hi
  | some fields =>
    intro i hi
    have hm := y_fields_loop_frame fields (deepcopyR h r).1
      (deepcopyR h r).2 h.length hseg1 hge
    show (y_fields_loop (deepcopyR h r).1 (deepcopyR h r).2 fields)[i]?
      = h[i]?
    rw [hm.2.1 i hi]
    exact hpre1 i hi

/-- A one-record heap used to witness the frame theorem. -/
def c10_witness_heap : Heap :=
  [HNode.dict [("title", HEntry.leaf (HLeaf.hstr ['A', '\n', 'B']))]]

/-- C10: the Newline-Normalizer's `transform_json` and `transform` and the
Reference-Normalizer's `transform_json` never mutate their input record:
whatever target columns are configured (`None`, empty, or any list of
dotted paths), the structural value of the input object is unchanged by
the call — every rewrite happens on the returned deep copy, and this holds
on the exception path of `transform` as well. -/
theorem c10_transformers_copy_input (h : Heap) (r : Nat)
    (cols : Option (List (List Char))) (hwf : HeapWF h) (hr : r < h.length) :
    valueAt (nl_transform_json h r cols).1 r = valueAt h r ∧
    valueAt (nl_transform h r cols).1 r = valueAt h r ∧
    valueAt (y_transform_json h r cols).1 r = valueAt h r := by
  refine ⟨?_, ?_, ?_⟩
  · exact valueAt_prefix r _ h (fun i hi =>
      nl_transform_json_frame h r cols hwf hr i (by omega))
  · exact valueAt_prefix r _ h (fun i hi =>
      nl_transform_frame h r cols hwf hr i (by omega))
  · exact valueAt_prefix r _ h (fun i hi =>
      y_transform_json_frame h r cols hwf hr i (by omega))

/-- Witness: the frame theorem applied to a concrete one-record heap with
a rewritable string field, in walk-everything mode. -/
theorem c10_transformers_copy_input_witness :
    HeapWF c10_witness_heap ∧ 0 < c10_witness_heap.length ∧
    (valueAt (nl_transform_json c10_witness_heap 0 none).1 0 =
       valueAt c10_witness_heap 0 ∧
     valueAt (nl_transform c10_witness_heap 0 none).1 0 =
       valueAt c10_witness_heap 0 ∧
     valueAt (y_transform_json c10_witness_heap 0 none).1 0 =
       valueAt c10_witness_heap 0) :=
  ⟨by unfold HeapWF; decide, by decide,
   c10_transformers_copy_input c10_witness_heap 0 none
     (by unfold HeapWF; decide) (by decide)⟩
